import Mathlib

set_option maxRecDepth 8000

/-!
Shallow embedding of `src/Project Portfolio/script.js` (a static portfolio
page: markdown-to-HTML conversion, project filtering, date sorting, init
error handling and RSS generation).  Strings are modelled as `List Char`.
Host (browser) primitives that the script calls — `Date` parsing,
`Array.prototype.sort`'s engine, `location.href`, `Date..toUTCString`,
`Math.random` — are modelled as explicit parameters or small models, each
with a comment saying what it models.  Everything else is translated
directly from the source.
-/

namespace JSP

/-! ### Characters and basic string operations -/

/-- The backtick character (written via its code point). -/
def tick : Char := '\x60'

/-- Whitespace per JavaScript `\s`, `trim`, `trimEnd` (WhiteSpace ∪ LineTerminator). -/
def isJsSpace (c : Char) : Bool :=
  c = ' ' || c = '\t' || c = '\n' || c = '\r' || c = '\x0b' || c = '\x0c' ||
  c = ' ' || c = ' ' || (0x2000 ≤ c.toNat && c.toNat ≤ 0x200A) ||
  c = ' ' || c = ' ' || c = ' ' || c = ' ' ||
  c = '　' || c = '﻿'

/-- Line terminators per ECMAScript (what `.` in a regex does not match). -/
def isLineTerm (c : Char) : Bool :=
  c = '\n' || c = '\r' || c = ' ' || c = ' '

/-- `String.prototype.trimStart`. -/
def trimStartL (s : List Char) : List Char := s.dropWhile isJsSpace

/-- `String.prototype.trimEnd`. -/
def trimEndL (s : List Char) : List Char := (s.reverse.dropWhile isJsSpace).reverse

/-- `String.prototype.trim` (both ends). -/
def trimB (s : List Char) : List Char := trimEndL (trimStartL s)

/-- `String.prototype.toLowerCase`, modelled character-wise with `Char.toLower`. -/
def lowerL (s : List Char) : List Char := s.map Char.toLower

/-- `String.prototype.startsWith pat`: does `s` start with `pat`? -/
def startsWithL : List Char → List Char → Bool
  | [], _ => true
  | _ :: _, [] => false
  | p :: ps, c :: cs => p = c && startsWithL ps cs

/-- `String.prototype.includes pat`: does `pat` occur contiguously in `s`? -/
def containsL (s pat : List Char) : Bool :=
  startsWithL pat s ||
    match s with
    | [] => false
    | _ :: t => containsL t pat

/-- `pat` occurs contiguously inside `s`. -/
def InfixOf (pat s : List Char) : Prop := ∃ a b, s = a ++ pat ++ b

/-- Does `s` contain the character `c` (spelled out for easy induction)? -/
def hasChar (c : Char) : List Char → Bool
  | [] => false
  | d :: r => d = c || hasChar c r

/-- Does `s` contain a raw `<`?  Used for the RSS counting hypotheses. -/
def hasLt (s : List Char) : Bool := hasChar '<' s

/-- Does `s` contain `<` immediately followed by `u` (start of a `<ul>` tag)? -/
def hasLtU : List Char → Bool
  | c1 :: c2 :: r => (c1 = '<' && c2 = 'u') || hasLtU (c2 :: r)
  | _ => false

/-- Is the last character of `s` a `<`? -/
def endsLt (s : List Char) : Bool :=
  match s.getLast? with
  | some c => c = '<'
  | none => false

/-- Is the first character of `s` a `u`? -/
def headU (s : List Char) : Bool :=
  match s.head? with
  | some c => c = 'u'
  | none => false

/-- `Array.prototype.join " "` on a list of strings (used on `[title, description, tags.join(" ")]`). -/
def joinSp : List (List Char) → List Char
  | [] => []
  | [x] => x
  | x :: y :: r => x ++ ' ' :: joinSp (y :: r)

/-- `Array.prototype.join "\n"` (used on `out` in `mdToHtml`). -/
def joinNl : List (List Char) → List Char
  | [] => []
  | [x] => x
  | x :: y :: r => x ++ '\n' :: joinNl (y :: r)

/-- Split a string at every occurrence of the character `c`
(`String.prototype.split`): the segments between the occurrences. -/
def splitOnChar (c : Char) : List Char → List (List Char)
  | [] => [[]]
  | d :: r =>
    if d = c then [] :: splitOnChar c r
    else (splitOnChar c r).modifyHead (d :: ·)

/-- `(md || "").replace(/\r\n/g, "\n")`: collapse CRLF to LF, left to right. -/
def replCRLF : List Char → List Char
  | [] => []
  | '\r' :: '\n' :: r => '\n' :: replCRLF r
  | c :: r => c :: replCRLF r

/-- Split a string before the first occurrence of `c`:
`breakAt c s = some (a, b)` iff `s = a ++ c :: b` with `c ∉ a`. -/
def breakAt (c : Char) : List Char → Option (List Char × List Char)
  | [] => none
  | d :: r =>
    if d = c then some ([], r)
    else (breakAt c r).map fun p => (d :: p.1, p.2)

/-! ### The data model (§3 of the spec): one entity, `Project` -/

/-- A `{url, label}` link of a project. -/
structure PLink where
  url : List Char
  label : List Char
deriving DecidableEq

/-- A gallery image: either a plain path string or a `{src, alt}` object. -/
inductive PImage where
  | path (p : List Char)
  | obj (src : List Char) (alt : Option (List Char))
deriving DecidableEq

/-- A project as consumed by `script.js`.  Fields that the script guards with
`p.field || default` or truthiness tests are modelled so that the falsy cases
(`undefined`, `""`) are the empty list / `none`. -/
structure Project where
  id : List Char
  title : List Char
  date : Option (List Char)
  description : List Char
  tags : List (List Char)
  links : List PLink
  images : List PImage
  status : List Char
  isDraft : Bool
  isArchived : Bool
  isPrivate : Bool
deriving DecidableEq

/-! ### `normalize` and `applyFilters` -/

/-- `normalize(s) = (s || "").toLowerCase().trim()`. -/
def normalize (s : List Char) : List Char := trimB (lowerL s)

/-- The haystack `[p.title, p.description, (p.tags || []).join(" ")].join(" ")`. -/
def hayOf (p : Project) : List Char :=
  joinSp [p.title, p.description, joinSp p.tags]

/-- Boolean list membership (for `(p.tags || []).includes(tag)`). -/
def memL (x : List Char) : List (List Char) → Bool
  | [] => false
  | y :: r => decide (x = y) || memL x r

/-- The predicate passed to `all.filter` in `applyFilters` (lines 231-246).
`q` is already normalized, `tag` is the raw selected tag. -/
def filterKeep (q tag : List Char) (showDrafts showArchived showPrivate : Bool)
    (p : Project) : Bool :=
  if p.isPrivate && !showPrivate then false
  else if p.isDraft && !showDrafts then false
  else if p.isArchived && !showArchived then false
  else
    let hay := normalize (hayOf p)
    (decide (q = []) || containsL hay q) && (decide (tag = []) || memL tag p.tags)

/-- The filtered view computed by `applyFilters`: it normalizes the search
box value and filters the in-memory array. -/
def applyFiltersList (searchRaw tag : List Char)
    (showDrafts showArchived showPrivate : Bool)
    (projects : List Project) : List Project :=
  projects.filter (filterKeep (normalize searchRaw) tag showDrafts showArchived showPrivate)

/-- Specification rendering of claim C2, written from the claim's words:
a project is kept iff (not private or showPrivate) and (not draft or
showDrafts) and (not archived or showArchived) and (q empty or the
lowercased concatenation of title, description and tags contains the
normalized q) and (tag empty or among the project's tags).  The
"concatenation of its title, description and tags" is read as the
space-separated concatenation (the tags themselves space-separated). -/
def specKeep (searchRaw tag : List Char)
    (showDrafts showArchived showPrivate : Bool) (p : Project) : Prop :=
  (p.isPrivate = false ∨ showPrivate = true) ∧
  (p.isDraft = false ∨ showDrafts = true) ∧
  (p.isArchived = false ∨ showArchived = true) ∧
  (normalize searchRaw = [] ∨ InfixOf (normalize searchRaw) (lowerL (hayOf p))) ∧
  (tag = [] ∨ tag ∈ p.tags)

/-! ### Date sorting (`init`, lines 255-259)

`new Date(str).getTime()` is a host primitive: it yields a finite number of
milliseconds for a parseable date string and `NaN` otherwise.  It is
modelled as an explicit parameter `pd : List Char → Option Int`, `none`
standing for `NaN`.  `a.date ? new Date(a.date).getTime() : 0` becomes
`tsRaw`. -/

/-- Timestamp of a project: `0` when there is no (or an empty, falsy) date
string, otherwise the parse result (`none` = `NaN`). -/
def tsRaw (pd : List Char → Option Int) (p : Project) : Option Int :=
  match p.date with
  | none => some 0
  | some d => pd d

/-- The comparator `(a, b) => bd - ad` with `NaN` propagation: if either
timestamp is `NaN` the subtraction is `NaN` (`none`). -/
def cmpDate (pd : List Char → Option Int) (a b : Project) : Option Int :=
  match tsRaw pd b, tsRaw pd a with
  | some x, some y => some (x - y)
  | _, _ => none

/-- Is a comparator result a strictly positive number?  (`NaN` compares
false, as in the engine's `comparator(a,b) > 0` tests.) -/
def cmpPos : Option Int → Bool
  | none => false
  | some v => decide (0 < v)

/-- Insert `a` into `l`, placing it before the first element `b` with
`cmp b a > 0`.  Processing elements left to right with this insertion is a
stable sort, which is what ES2019+ `Array.prototype.sort` guarantees for a
consistent comparator; for an inconsistent comparator (e.g. one returning
`NaN`) the engine order is implementation-defined and this is one model. -/
def jsInsert (cmp : α → α → Option Int) (a : α) : List α → List α
  | [] => [a]
  | b :: l => if cmpPos (cmp b a) then a :: b :: l else b :: jsInsert cmp a l

/-- Left-to-right insertion pass over the input list. -/
def jsSortAux (cmp : α → α → Option Int) (acc : List α) : List α → List α
  | [] => acc
  | a :: l => jsSortAux cmp (jsInsert cmp a acc) l

/-- Model of `Array.prototype.sort cmp` (see `jsInsert`). -/
def jsSort (cmp : α → α → Option Int) (l : List α) : List α := jsSortAux cmp [] l

/-- The array `init` stores into `all`:
`(data.projects || []).slice().sort((a,b) => bd - ad)`. -/
def initSorted (pd : List Char → Option Int) (projs : List Project) : List Project :=
  jsSort (cmpDate pd) projs

/-- "timestamp of `a` is greater than or equal to timestamp of `b`", with
`NaN` (`none`) comparing false on either side, as every numeric comparison
with `NaN` does. -/
def tsGeB (pd : List Char → Option Int) (a b : Project) : Bool :=
  match tsRaw pd a, tsRaw pd b with
  | some x, some y => decide (y ≤ x)
  | _, _ => false

/-- Claim C3 as stated: for every date-parsing behaviour and every input
project list (including lists with unparseable date strings), after `init`
the collection is sorted descending by timestamp. -/
def claimC3Prop : Prop :=
  ∀ (pd : List Char → Option Int) (projs : List Project),
    List.Chain' (fun a b => tsGeB pd a b = true) (initSorted pd projs)

/-! ### `init` and its single catch path (C5) -/

/-- The parsed body of `data.json`; `projects` may be absent. -/
structure RespData where
  projects : Option (List Project)

/-- The page state touched by `init`: the `all` array (initialized to `[]`
at line 18) and whether the error card was rendered by the `catch`. -/
structure PageState where
  allProjects : List Project
  errorShown : Bool
deriving DecidableEq

/-- `let all = []` and no error card: the state before `init` runs. -/
def initialState : PageState := ⟨[], false⟩

/-- `init().catch(...)`: the fetch of `data.json` and the parse of its body
are the two fallible awaits, both of which happen before `all` is assigned;
their combined outcome is `fetched`.  On failure the single catch path only
renders the error card. -/
def runInit (pd : List Char → Option Int) (st : PageState)
    (fetched : Except (List Char) RespData) : PageState :=
  match fetched with
  | .error _ => { st with errorShown := true }
  | .ok d => { st with allProjects := initSorted pd (d.projects.getD []) }

/-! ### A store model for the mutation claims (C7)

JavaScript arrays are heap objects: `slice()` allocates a fresh array,
`sort` mutates its receiver in place, `filter` allocates a fresh array and
leaves its receiver untouched.  A store of numbered array cells makes those
facts expressible. -/

/-- A store of project-array cells; references are indices. -/
structure Store where
  cells : List (List Project)

/-- Allocate a new cell holding `v`; returns the new store and the reference. -/
def alloc (st : Store) (v : List Project) : Store × Nat :=
  (⟨st.cells ++ [v]⟩, st.cells.length)

/-- Read a cell (out-of-range reads give `[]`; never exercised). -/
def readC (st : Store) (r : Nat) : List Project := st.cells.getD r []

/-- Overwrite a cell. -/
def writeC (st : Store) (r : Nat) (v : List Project) : Store := ⟨st.cells.set r v⟩

/-- `arr.slice()`: allocate a fresh array with the same elements. -/
def sliceOp (st : Store) (r : Nat) : Store × Nat := alloc st (readC st r)

/-- `arr.sort(cmp)`: sort the receiver in place. -/
def sortOp (pd : List Char → Option Int) (st : Store) (r : Nat) : Store :=
  writeC st r (jsSort (cmpDate pd) (readC st r))

/-- `arr.filter(f)`: allocate a fresh array with the kept elements. -/
def filterOp (st : Store) (r : Nat) (f : Project → Bool) : Store × Nat :=
  alloc st ((readC st r).filter f)

/-- Line 255 of `init`: `all = data.projects.slice().sort(...)` — slice the
fetched array into a fresh cell, sort that fresh cell in place, and return
its reference (the new `all`). -/
def initArraysOp (pd : List Char → Option Int) (st : Store) (r : Nat) : Store × Nat :=
  let s1 := sliceOp st r
  (sortOp pd s1.1 s1.2, s1.2)

/-- The array part of `applyFilters`: filter `all` into a fresh array
(`render` only reads, so it is not modelled here). -/
def applyFiltersOp (st : Store) (rAll : Nat) (searchRaw tag : List Char)
    (showDrafts showArchived showPrivate : Bool) : Store × Nat :=
  filterOp st rAll (filterKeep (normalize searchRaw) tag showDrafts showArchived showPrivate)

/-! ### `mdToHtml` (lines 49-123) -/

/-- Replace every occurrence of the character `c` by the string `rep`
(JavaScript `str.replace(/c/g, rep)` for a single-character pattern). -/
def replaceChar (s : List Char) (c : Char) (rep : List Char) : List Char :=
  s.flatMap fun x => if x = c then rep else [x]

/-- The `esc` helper (lines 54-55): four global single-character replaces,
in source order `&`, `<`, `>`, `"`. -/
def esc (s : List Char) : List Char :=
  replaceChar
    (replaceChar
      (replaceChar
        (replaceChar s '&' "&amp;".toList)
        '<' "&lt;".toList)
      '>' "&gt;".toList)
    '"' "&quot;".toList

/-- What `esc` does to a single character (proved equal to the pipeline). -/
def escChar (c : Char) : List Char :=
  if c = '&' then "&amp;".toList
  else if c = '<' then "&lt;".toList
  else if c = '>' then "&gt;".toList
  else if c = '"' then "&quot;".toList
  else [c]

/-- `<code>` literal. -/
def codeOpenS : List Char := "<code>".toList

/-- `</code>` literal. -/
def codeCloseS : List Char := "</code>".toList

/-- The global replace `` s.replace(/`([^`]+)`/g, "<code>$1</code>") ``,
expressed on the segments of `s` between backticks.  Going left to right:
a backtick whose following segment is nonempty and is closed by another
backtick becomes `<code>segment</code>`; a backtick immediately followed
by another backtick, or never closed, stays literal and scanning resumes at
the next backtick. -/
def goCode : List (List Char) → List Char
  | [] => []
  | [s0] => s0
  | [s0, s1] => s0 ++ tick :: s1
  | s0 :: s1 :: s2 :: rest =>
    if s1 = [] then s0 ++ tick :: goCode ([] :: s2 :: rest)
    else s0 ++ codeOpenS ++ s1 ++ codeCloseS ++ goCode (s2 :: rest)
termination_by l => l.length
decreasing_by all_goals (simp only [List.length_cons]; omega)

/-- The inline-code pass of `inline` (line 61). -/
def replaceCode (s : List Char) : List Char := goCode (splitOnChar tick s)

/-- The url whitelist of the link pass (lines 66-67). -/
def isSafeUrlL (u : List Char) : Bool :=
  startsWithL "http://".toList u || startsWithL "https://".toList u ||
  startsWithL "/".toList u || startsWithL "./".toList u ||
  startsWithL "../".toList u

/-- The replacement anchor `<a href="u" target="_blank" rel="noreferrer">`
(line 69) around an already-escaped url `u`. -/
def aOpenOf (u : List Char) : List Char :=
  "<a href=\"".toList ++ u ++ "\" target=\"_blank\" rel=\"noreferrer\">".toList

/-- `</a>` literal. -/
def aCloseS : List Char := "</a>".toList

/-- The replacement for one matched `[text](url)` (lines 64-70): a safe
trimmed url yields an anchor with both pieces escaped again, any other url
yields just the escaped text. -/
def linkRepl (text url : List Char) : List Char :=
  let u := trimB url
  if isSafeUrlL u then aOpenOf (esc u) ++ esc text ++ aCloseS
  else esc text

/-- Parse `text](url)` after an opening `[` for the regex
`/\[([^\]]+)\]\(([^)]+)\)/`: `text` is the (nonempty) run up to the first
`]`, which must be followed immediately by `(`, then `url` is the
(nonempty) run up to the first `)`.  Returns `(text, url, rest)`. -/
def parseLink (s : List Char) : Option (List Char × List Char × List Char) :=
  match breakAt ']' s with
  | none => none
  | some (text, rest1) =>
    if text = [] then none
    else
      match rest1 with
      | [] => none
      | c :: rest2 =>
        if c = '(' then
          match breakAt ')' rest2 with
          | none => none
          | some (url, rest3) =>
            if url = [] then none else some (text, url, rest3)
        else none

/-- The global link replace (lines 64-70), fuelled: scan for a `[`; if a
full `[text](url)` parses there, replace it and resume after the `)`;
otherwise keep the `[` literal and resume right after it (the engine's next
match attempt).  The fuel only bounds the recursion; `s.length + 1` always
suffices, see `replaceLinks`. -/
def replaceLinksF : Nat → List Char → List Char
  | 0, s => s
  | fuel + 1, s =>
    match breakAt '[' s with
    | none => s
    | some (pre, rest) =>
      match parseLink rest with
      | none => pre ++ '[' :: replaceLinksF fuel rest
      | some (text, url, rest3) => pre ++ linkRepl text url ++ replaceLinksF fuel rest3

/-- The link pass of `inline`. -/
def replaceLinks (s : List Char) : List Char := replaceLinksF (s.length + 1) s

/-- The `inline` helper (lines 57-73): escape, then inline code, then links. -/
def inline (s : List Char) : List Char := replaceLinks (replaceCode (esc s))

/-- `<ul>` literal. -/
def ulOpenS : List Char := "<ul>".toList

/-- `</ul>` literal. -/
def ulCloseS : List Char := "</ul>".toList

/-- `line.trim().replace(/^>\s?/, "")`: drop the leading `>` and at most
one following whitespace character. -/
def bqStrip (t : List Char) : List Char :=
  match t with
  | [] => []
  | _ :: r =>
    match r with
    | [] => []
    | c :: r2 => if isJsSpace c then r2 else c :: r2

/-- Capture of `\s+(.*)$` applied right after a matched prefix: requires at
least one whitespace character; the greedy `\s+` swallows the maximal
whitespace run; `.` cannot cross a line terminator and `$` only matches at
the very end, so the match fails if a line terminator survives in the
capture. -/
def headCap (rest : List Char) : Option (List Char) :=
  match rest with
  | [] => none
  | c :: _ =>
    if isJsSpace c then
      let cap := rest.dropWhile isJsSpace
      if cap.all (fun ch => !isLineTerm ch) then some cap else none
    else none

/-- `n` copies of `#`. -/
def hashes : Nat → List Char
  | 0 => []
  | n + 1 => '#' :: hashes n

/-- The heading regex `/^#…#\s+(.*)$/` with `n` hashes. -/
def hMatch (n : Nat) (line : List Char) : Option (List Char) :=
  if startsWithL (hashes n) line then headCap (line.drop n) else none

/-- The list-item regex `/^[-*]\s+(.*)$/`. -/
def liMatch (line : List Char) : Option (List Char) :=
  match line with
  | [] => none
  | c :: r => if c = '-' || c = '*' then headCap r else none

/-- How one (already `trimEnd`ed) line is classified by the `if` cascade of
the `mdToHtml` loop (lines 85-118), in source order: blank, blockquote,
h3, h2, h1, list item, paragraph. -/
inductive LineKind where
  | blank
  | bq (q : List Char)
  | h3 (cap : List Char)
  | h2 (cap : List Char)
  | h1 (cap : List Char)
  | li (cap : List Char)
  | para

/-- Classify a line (see `LineKind`). -/
def classify (line : List Char) : LineKind :=
  if trimB line = [] then .blank
  else if (trimB line).head? = some '>' then .bq (bqStrip (trimB line))
  else
    match hMatch 3 line with
    | some cap => .h3 cap
    | none =>
      match hMatch 2 line with
      | some cap => .h2 cap
      | none =>
        match hMatch 1 line with
        | some cap => .h1 cap
        | none =>
          match liMatch line with
          | some cap => .li cap
          | none => .para

/-- `closeList()`: emit `</ul>` if a list is open. -/
def closeL (inL : Bool) : List (List Char) := if inL then [ulCloseS] else []

/-- The line loop of `mdToHtml` (lines 82-121), producing the `out` array
of HTML fragments; `inL` is the `inList` flag. -/
def mdLoop : Bool → List (List Char) → List (List Char)
  | inL, [] => closeL inL
  | inL, raw :: ls =>
    let line := trimEndL raw
    match classify line with
    | .blank => closeL inL ++ mdLoop false ls
    | .bq q =>
      closeL inL ++ ("<blockquote>".toList ++ inline q ++ "</blockquote>".toList)
        :: mdLoop false ls
    | .h3 cap =>
      closeL inL ++ ("<h3>".toList ++ inline cap ++ "</h3>".toList) :: mdLoop false ls
    | .h2 cap =>
      closeL inL ++ ("<h2>".toList ++ inline cap ++ "</h2>".toList) :: mdLoop false ls
    | .h1 cap =>
      closeL inL ++ ("<h1>".toList ++ inline cap ++ "</h1>".toList) :: mdLoop false ls
    | .li cap =>
      (if inL then [] else [ulOpenS]) ++
        ("<li>".toList ++ inline cap ++ "</li>".toList) :: mdLoop true ls
    | .para =>
      closeL inL ++ ("<p>".toList ++ inline line ++ "</p>".toList) :: mdLoop false ls

/-- The `out` array of `mdToHtml md`. -/
def mdEntries (md : List Char) : List (List Char) :=
  mdLoop false (splitOnChar '\n' (replCRLF md))

/-- `mdToHtml` (lines 49-123): process the lines and join with newlines. -/
def mdToHtml (md : List Char) : List Char := joinNl (mdEntries md)

/-! ### Sanitization tokens (for C1, C6, C8)

The output of `mdToHtml` is a concatenation of tokens: ordinary characters
that are none of `& < > "`, the four escape entities, the converter's own
tags, and anchors whose href is an escaped, whitelist-safe url.  `TokChain`
strings together tokens of a given shape. -/

/-- `&amp;` literal. -/
def ampEnt : List Char := "&amp;".toList

/-- `&lt;` literal. -/
def ltEnt : List Char := "&lt;".toList

/-- `&gt;` literal. -/
def gtEnt : List Char := "&gt;".toList

/-- `&quot;` literal. -/
def quotEnt : List Char := "&quot;".toList

/-- Tokens of `esc` output: harmless single characters and the four
escape entities. -/
inductive EntTok : List Char → Prop where
  | safe (c : Char) : c ≠ '&' → c ≠ '<' → c ≠ '>' → c ≠ '"' → EntTok [c]
  | amp : EntTok ampEnt
  | lt : EntTok ltEnt
  | gt : EntTok gtEnt
  | quot : EntTok quotEnt

/-- Tokens after the inline-code pass: additionally `<code>` and `</code>`. -/
inductive CodeTok : List Char → Prop where
  | ent {t : List Char} : EntTok t → CodeTok t
  | copen : CodeTok codeOpenS
  | cclose : CodeTok codeCloseS

/-- Tokens after the link pass: additionally `</a>` and opening anchors
whose href is itself a chain of escape tokens (hence free of `< > "`) and
passes the url whitelist. -/
inductive LinkTok : List Char → Prop where
  | code {t : List Char} : CodeTok t → LinkTok t
  | aclose : LinkTok aCloseS
  | aopen (u : List Char) :
      (∀ c ∈ u, c ≠ '<' ∧ c ≠ '>' ∧ c ≠ '"') → isSafeUrlL u = true →
      LinkTok (aOpenOf u)

/-- The block-level tags `mdToHtml` itself emits. -/
def wrapperTags : List (List Char) :=
  ["<p>".toList, "</p>".toList, "<h1>".toList, "</h1>".toList,
   "<h2>".toList, "</h2>".toList, "<h3>".toList, "</h3>".toList,
   "<ul>".toList, "</ul>".toList, "<li>".toList, "</li>".toList,
   "<blockquote>".toList, "</blockquote>".toList]

/-- Tokens of the final `mdToHtml` output. -/
inductive SanTok : List Char → Prop where
  | link {t : List Char} : LinkTok t → SanTok t
  | tag {t : List Char} : t ∈ wrapperTags → SanTok t

/-- A string that is a concatenation of (nonempty) tokens satisfying `T`. -/
inductive TokChain (T : List Char → Prop) : List Char → Prop where
  | nil : TokChain T []
  | cons (t s : List Char) : T t → t ≠ [] → TokChain T s → TokChain T (t ++ s)

/-- The flat-list check of C6 on the `out` entries: `<ul>` may only open
when no list is open, `</ul>` only close an open one, the scan ends with no
list open, and no other entry even contains the two characters `<u`. -/
def ulScan (inUl : Bool) : List (List Char) → Bool
  | [] => !inUl
  | e :: r =>
    if e = ulOpenS then !inUl && ulScan true r
    else if e = ulCloseS then inUl && ulScan false r
    else !hasLtU e && ulScan inUl r

/-! ### `makeRSS` (lines 125-145)

`location.href`-derived `base`, `new Date().toUTCString()` (`now`),
`new Date(d).toUTCString()` (`utc`) and `Math.random()` (`rnd`) are host
values, passed as parameters.  The source builds one template-literal
string and wraps it in a blob URL; the embedding is the string itself. -/

/-- Scaffold before the title CDATA of one `<item>`. -/
def iS1 : List Char := "\n    <item>\n      <title><![CDATA[".toList

/-- Scaffold between title and link. -/
def iS2 : List Char := "]]></title>\n      <link>".toList

/-- Scaffold between link and description CDATA. -/
def iS3 : List Char := "</link>\n      <description><![CDATA[".toList

/-- Scaffold between description and pubDate. -/
def iS4 : List Char := "]]></description>\n      <pubDate>".toList

/-- Scaffold between pubDate and guid. -/
def iS5 : List Char := "</pubDate>\n      <guid isPermaLink=\"false\">".toList

/-- Scaffold closing one `<item>`. -/
def iS6 : List Char := "</guid>\n    </item>".toList

/-- `(p.links && p.links[0] && p.links[0].url) ? p.links[0].url : base`. -/
def itemLinkVal (base : List Char) (p : Project) : List Char :=
  match p.links.head? with
  | some l => if l.url = [] then base else l.url
  | none => base

/-- `p.date ? new Date(p.date).toUTCString() : new Date().toUTCString()`. -/
def itemDateVal (now : List Char) (utc : List Char → List Char) (p : Project) : List Char :=
  match p.date with
  | some d => utc d
  | none => now

/-- `p.id || p.title || Math.random()`. -/
def itemGuidVal (rnd : List Char) (p : Project) : List Char :=
  if p.id = [] then (if p.title = [] then rnd else p.title) else p.id

/-- One `<item>` of the feed (lines 134-140): title and description go into
CDATA sections verbatim (`p.title || ""`, `p.description || ""`). -/
def itemXml (base now : List Char) (utc : List Char → List Char) (rnd : List Char)
    (p : Project) : List Char :=
  iS1 ++ p.title ++ iS2 ++ itemLinkVal base p ++ iS3 ++ p.description ++ iS4 ++
    itemDateVal now utc p ++ iS5 ++ itemGuidVal rnd p ++ iS6

/-- Feed scaffold before the channel `<link>` contents. -/
def rssH1 : List Char :=
  ("<?xml version=\"1.0\" encoding=\"UTF-8\"?>\n<rss version=\"2.0\">\n  <channel>\n"
    ++ "    <title>David de la Montombre — Experimental Works</title>\n    <link>").toList

/-- Feed scaffold between the channel link and the items. -/
def rssH2 : List Char :=
  "</link>\n    <description>Project updates</description>\n    ".toList

/-- Feed scaffold after the items. -/
def rssF : List Char := "\n  </channel>\n</rss>".toList

/-- The RSS string `makeRSS` builds (lines 127-142): header, the first 30
items joined with `""`, footer. -/
def makeRSS (base now : List Char) (utc : List Char → List Char) (rnd : List Char)
    (items : List Project) : List Char :=
  rssH1 ++ base ++ rssH2 ++
    ((items.take 30).map (itemXml base now utc rnd)).flatten ++ rssF

/-- `<item>` literal (the open tag counted in C9). -/
def itemPat : List Char := "<item>".toList

/-- Number of positions of `s` where the string `<item>` starts. -/
def countItem : List Char → Nat
  | [] => 0
  | c :: r => (if startsWithL itemPat (c :: r) then 1 else 0) + countItem r

/-- The per-project cleanliness hypothesis of C9: the strings interpolated
into an item contain no raw `<`. -/
def itemClean (base now : List Char) (utc : List Char → List Char) (rnd : List Char)
    (p : Project) : Prop :=
  hasLt p.title = false ∧ hasLt p.description = false ∧
  hasLt (itemLinkVal base p) = false ∧ hasLt (itemDateVal now utc p) = false ∧
  hasLt (itemGuidVal rnd p) = false

/-- `<description><![CDATA[` literal. -/
def descCdataOpen : List Char := "<description><![CDATA[".toList

/-- `<title><![CDATA[` literal. -/
def titleCdataOpen : List Char := "<title><![CDATA[".toList

/-- The CDATA terminator `]]>`. -/
def cdataCloseS : List Char := "]]>".toList

/-- A concrete project whose description contains the CDATA terminator. -/
def badProj : Project :=
  { id := "i".toList, title := "t".toList, date := none,
    description := "x]]>y".toList, tags := [], links := [], images := [],
    status := [], isDraft := false, isArchived := false, isPrivate := false }

/-- A character that plays no role in any of `esc`, the inline-code regex
and the link regex: none of `& < > "`, backtick, or a bracket. -/
def plainChar (c : Char) : Bool :=
  !(c = '&' || c = '<' || c = '>' || c = '"' || c = tick ||
    c = '[' || c = ']' || c = '(' || c = ')')

/-- The markdown source of one link construct, `[text](url)`. -/
def linkSrc (text url : List Char) : List Char :=
  '[' :: (text ++ ']' :: '(' :: (url ++ [')']))

/-- A date-parsing behaviour under which every date string is unparseable
(`NaN`); `new Date("not a date").getTime()` is `NaN`, so any faithful model
of the host parser agrees with `pdNone` on such strings. -/
def pdNone : List Char → Option Int := fun _ => none

/-- A date-parsing behaviour under which every date string parses (to 0). -/
def pdZero : List Char → Option Int := fun _ => some 0

/-- A project carrying an unparseable date string. -/
def projBadDate : Project := { badProj with date := some "not a date".toList }

/-- The numeric timestamp of a project whose date parses (`NaN` defaulted
to 0; only used under a hypothesis that excludes `NaN`). -/
def fval (pd : List Char → Option Int) (p : Project) : Int := (tsRaw pd p).getD 0

/-! ## Lemmas and the claim theorems -/

theorem startsWithL_iff (p s : List Char) :
    startsWithL p s = true ↔ ∃ t, s = p ++ t := by
  induction p generalizing s with
  | nil => simp [startsWithL]
  | cons c ps ih =>
    cases s with
    | nil => simp [startsWithL]
    | cons d t =>
      simp only [startsWithL, Bool.and_eq_true, decide_eq_true_eq, ih, List.cons_append,
        List.cons.injEq]
      constructor
      · rintro ⟨rfl, u, rfl⟩; exact ⟨u, rfl, rfl⟩
      · rintro ⟨u, rfl, rfl⟩; exact ⟨rfl, u, rfl⟩

theorem infixOf_cons (pat : List Char) (c : Char) (t : List Char) :
    InfixOf pat (c :: t) ↔ (∃ r, c :: t = pat ++ r) ∨ InfixOf pat t := by
  constructor
  · rintro ⟨a, b, h⟩
    cases a with
    | nil => exact Or.inl ⟨b, by simpa using h⟩
    | cons d a' =>
      simp only [List.cons_append, List.cons.injEq] at h
      exact Or.inr ⟨a', b, h.2⟩
  · rintro (⟨r, h⟩ | ⟨a, b, h⟩)
    · exact ⟨[], r, by simpa using h⟩
    · exact ⟨c :: a, b, by simp [h]⟩

theorem containsL_iff (s pat : List Char) :
    containsL s pat = true ↔ InfixOf pat s := by
  induction s with
  | nil =>
    simp only [containsL, startsWithL_iff, Bool.or_eq_true]
    constructor
    · rintro (⟨t, h⟩ | h)
      · exact ⟨[], t, by simpa using h⟩
      · simp at h
    · rintro ⟨a, b, h⟩
      have ha : a = [] := by cases a <;> simp_all
      subst ha
      exact Or.inl ⟨b, by simpa using h⟩
  | cons c t ih =>
    simp only [containsL, Bool.or_eq_true, startsWithL_iff, ih, infixOf_cons]

theorem dropWhile_head_false {p : Char → Bool} {s : List Char} {c : Char} {r : List Char}
    (h : s.dropWhile p = c :: r) : p c = false := by
  induction s with
  | nil => simp at h
  | cons d t ih =>
    rw [List.dropWhile_cons] at h
    by_cases hd : p d = true
    · rw [if_pos hd] at h; exact ih h
    · rw [if_neg hd] at h
      cases h
      simpa using hd

theorem dropWhile_is_suffix (p : Char → Bool) (s : List Char) :
    ∃ a, s = a ++ s.dropWhile p := by
  induction s with
  | nil => exact ⟨[], rfl⟩
  | cons d t ih =>
    rw [List.dropWhile_cons]
    by_cases hd : p d = true
    · obtain ⟨a, ha⟩ := ih
      exact ⟨d :: a, by simp [hd, ← ha]⟩
    · exact ⟨[], by simp [hd]⟩

theorem infixOf_append_left (pat a s : List Char) (h : InfixOf pat s) :
    InfixOf pat (a ++ s) := by
  obtain ⟨x, y, rfl⟩ := h
  exact ⟨a ++ x, y, by simp⟩

theorem infixOf_trimStart {qh : Char} {q' : List Char} (s : List Char)
    (hq : isJsSpace qh = false) :
    InfixOf (qh :: q') (trimStartL s) ↔ InfixOf (qh :: q') s := by
  constructor
  · intro h
    obtain ⟨a, ha⟩ := dropWhile_is_suffix isJsSpace s
    rw [trimStartL] at h
    rw [ha]
    exact infixOf_append_left _ _ _ h
  · intro h
    induction s with
    | nil => simpa [trimStartL] using h
    | cons c t ih =>
      rw [trimStartL, List.dropWhile_cons]
      by_cases hc : isJsSpace c = true
      · rw [if_pos hc]
        rcases (infixOf_cons _ _ _).1 h with ⟨r, hr⟩ | h'
        · simp only [List.cons_append, List.cons.injEq] at hr
          rw [hr.1] at hc
          rw [hq] at hc
          exact absurd hc (by simp)
        · exact ih h'
      · rw [if_neg hc]
        exact h

theorem infixOf_reverse (pat s : List Char) :
    InfixOf pat.reverse s.reverse ↔ InfixOf pat s := by
  constructor
  · rintro ⟨a, b, h⟩
    refine ⟨b.reverse, a.reverse, ?_⟩
    have := congrArg List.reverse h
    simpa using this
  · rintro ⟨a, b, rfl⟩
    exact ⟨b.reverse, a.reverse, by simp⟩

theorem infixOf_trimEnd {q : List Char} (s : List Char) (hq : q ≠ [])
    (h2 : ∀ c, q.getLast? = some c → isJsSpace c = false) :
    InfixOf q (trimEndL s) ↔ InfixOf q s := by
  obtain ⟨qh, q', hrev⟩ : ∃ qh q', q.reverse = qh :: q' := by
    cases hqr : q.reverse with
    | nil => exact absurd (by simpa using hqr) hq
    | cons x xs => exact ⟨x, xs, rfl⟩
  have hlast : isJsSpace qh = false := by
    apply h2
    rw [← List.head?_reverse, hrev]
    rfl
  have e1 : InfixOf q (trimEndL s) ↔ InfixOf q.reverse (trimEndL s).reverse :=
    (infixOf_reverse q (trimEndL s)).symm
  have e2 : (trimEndL s).reverse = trimStartL s.reverse := by
    simp [trimEndL, trimStartL]
  rw [e1, e2, hrev]
  rw [infixOf_trimStart s.reverse hlast]
  rw [← hrev, infixOf_reverse]

theorem infixOf_trimB {q : List Char} (s : List Char) (hq : q ≠ [])
    (h1 : ∀ c, q.head? = some c → isJsSpace c = false)
    (h2 : ∀ c, q.getLast? = some c → isJsSpace c = false) :
    InfixOf q (trimB s) ↔ InfixOf q s := by
  obtain ⟨qh, q', rfl⟩ : ∃ qh q', q = qh :: q' := by
    cases q with
    | nil => exact absurd rfl hq
    | cons x xs => exact ⟨x, xs, rfl⟩
  have hh : isJsSpace qh = false := h1 qh rfl
  rw [trimB, infixOf_trimEnd (trimStartL s) hq h2, infixOf_trimStart s hh]

theorem trimEnd_is_a_start (s : List Char) : ∃ b, s = trimEndL s ++ b := by
  obtain ⟨a, ha⟩ := dropWhile_is_suffix isJsSpace s.reverse
  refine ⟨a.reverse, ?_⟩
  have := congrArg List.reverse ha
  simpa [trimEndL] using this

theorem normalize_head_not_space {s : List Char} {c : Char} {r : List Char}
    (h : normalize s = c :: r) : isJsSpace c = false := by
  rw [normalize, trimB] at h
  obtain ⟨b, hb⟩ := trimEnd_is_a_start (trimStartL (lowerL s))
  rw [h] at hb
  have hb' : (lowerL s).dropWhile isJsSpace = c :: (r ++ b) := by
    simpa [trimStartL] using hb
  exact dropWhile_head_false hb'

theorem normalize_last_not_space {s : List Char} {c : Char}
    (h : (normalize s).getLast? = some c) : isJsSpace c = false := by
  rw [← List.head?_reverse] at h
  rw [normalize, trimB] at h
  have e2 : (trimEndL (trimStartL (lowerL s))).reverse
      = trimStartL (trimStartL (lowerL s)).reverse := by
    simp [trimEndL, trimStartL]
  rw [e2] at h
  cases hx : trimStartL (trimStartL (lowerL s)).reverse with
  | nil => rw [hx] at h; simp at h
  | cons d t =>
    rw [hx] at h
    simp only [List.head?_cons, Option.some.injEq] at h
    subst h
    exact dropWhile_head_false (p := isJsSpace) (s := (trimStartL (lowerL s)).reverse) hx

theorem memL_iff (x : List Char) (l : List (List Char)) :
    memL x l = true ↔ x ∈ l := by
  induction l with
  | nil => simp [memL]
  | cons y r ih => simp [memL, ih]

theorem filterKeep_iff (searchRaw tag : List Char) (sd sa sp : Bool) (p : Project) :
    filterKeep (normalize searchRaw) tag sd sa sp p = true ↔
      specKeep searchRaw tag sd sa sp p := by
  have hq : (normalize searchRaw = [] ∨
        containsL (normalize (hayOf p)) (normalize searchRaw) = true) ↔
      (normalize searchRaw = [] ∨ InfixOf (normalize searchRaw) (lowerL (hayOf p))) := by
    by_cases hz : normalize searchRaw = []
    · simp [hz]
    · simp only [hz, false_or]
      rw [containsL_iff]
      show InfixOf (normalize searchRaw) (trimB (lowerL (hayOf p))) ↔ _
      exact infixOf_trimB _ hz
        (fun c hc => by
          cases hn : normalize searchRaw with
          | nil => exact absurd hn hz
          | cons a r => rw [hn] at hc; cases hc; exact normalize_head_not_space hn)
        (fun c hc => normalize_last_not_space hc)
  rw [filterKeep, specKeep]
  rcases p with ⟨pid, ptitle, pdate, pdesc, ptags, plinks, pimgs, pstat, pd, pa, pp⟩
  cases pd <;> cases pa <;> cases pp <;> cases sd <;> cases sa <;> cases sp <;>
    simp_all [memL_iff, hayOf]

/-- Claim C2: a project is in the filtered view produced by `applyFilters`
iff it passes the three visibility toggles, the normalized text query is
empty or occurs in the lowercased concatenation of title, description and
tags, and the selected tag is empty or among the project's tags. -/
theorem c2_applyFilters_characterization
    (searchRaw tag : List Char) (sd sa sp : Bool) (p : Project)
    (projs : List Project) :
    p ∈ applyFiltersList searchRaw tag sd sa sp projs ↔
      p ∈ projs ∧ specKeep searchRaw tag sd sa sp p := by
  rw [applyFiltersList, List.mem_filter, filterKeep_iff]

/-- Claim C4: the three visibility flags act independently: when a
project's draft flag is off, flipping `showDrafts` does not change whether
`applyFilters` keeps it, and likewise for archived/`showArchived` and
private/`showPrivate`. -/
theorem c4_flag_independence (q tag : List Char) (p : Project) :
    (p.isDraft = false → ∀ d1 d2 sa sp : Bool,
        filterKeep q tag d1 sa sp p = filterKeep q tag d2 sa sp p) ∧
    (p.isArchived = false → ∀ a1 a2 sd sp : Bool,
        filterKeep q tag sd a1 sp p = filterKeep q tag sd a2 sp p) ∧
    (p.isPrivate = false → ∀ p1 p2 sd sa : Bool,
        filterKeep q tag sd sa p1 p = filterKeep q tag sd sa p2 p) := by
  refine ⟨fun h d1 d2 sa sp => ?_, fun h a1 a2 sd sp => ?_, fun h p1 p2 sd sa => ?_⟩ <;>
    simp [filterKeep, h]

/-- Witness for C4 at a concrete non-draft, non-archived, non-private project. -/
theorem c4_flag_independence_witness :
    filterKeep [] [] true true true badProj = filterKeep [] [] false true true badProj :=
  (c4_flag_independence [] [] badProj).1 rfl true false true true

/-! ### Sorting lemmas (C3) -/

theorem jsInsert_mem {cmp : α → α → Option Int} {a x : α} {l : List α} :
    x ∈ jsInsert cmp a l ↔ x = a ∨ x ∈ l := by
  induction l with
  | nil => simp [jsInsert]
  | cons b t ih =>
    rw [jsInsert]
    by_cases hb : cmpPos (cmp b a) = true
    · simp [hb]
    · simp only [Bool.not_eq_true] at hb
      simp only [hb, Bool.false_eq_true, if_false, List.mem_cons, ih]
      tauto

theorem jsInsert_pairwise {cmp : α → α → Option Int} (f : α → Int) {a : α} {l : List α}
    (hc : ∀ x ∈ l, cmp x a = some (f a - f x))
    (hp : List.Pairwise (fun x y => f y ≤ f x) l) :
    List.Pairwise (fun x y => f y ≤ f x) (jsInsert cmp a l) := by
  induction l with
  | nil => simp [jsInsert]
  | cons b t ih =>
    rw [jsInsert]
    have hcb : cmp b a = some (f a - f b) := hc b (by simp)
    by_cases hba : cmpPos (cmp b a) = true
    · rw [if_pos hba]
      rw [hcb] at hba
      have hfb : f b < f a := by
        simpa [cmpPos, Int.sub_pos] using hba
      rw [List.pairwise_cons]
      refine ⟨?_, hp⟩
      intro y hy
      rcases List.mem_cons.1 hy with rfl | hy
      · exact le_of_lt hfb
      · exact le_trans (List.rel_of_pairwise_cons hp hy) (le_of_lt hfb)
    · rw [if_neg hba]
      rw [hcb] at hba
      have hab : f a ≤ f b := by
        by_contra hlt
        exact hba (by simpa [cmpPos, Int.sub_pos] using lt_of_not_le hlt)
      rw [List.pairwise_cons] at hp
      rw [List.pairwise_cons]
      refine ⟨?_, ih (fun x hx => hc x (by simp [hx])) hp.2⟩
      intro y hy
      rcases jsInsert_mem.1 hy with rfl | hy
      · exact hab
      · exact hp.1 y hy

theorem jsSortAux_mem {cmp : α → α → Option Int} :
    ∀ (rest acc : List α) (x : α), x ∈ jsSortAux cmp acc rest → x ∈ acc ++ rest := by
  intro rest
  induction rest with
  | nil => intro acc x hx; simpa [jsSortAux] using hx
  | cons a t ih =>
    intro acc x hx
    rw [jsSortAux] at hx
    have := ih (jsInsert cmp a acc) x hx
    rw [List.mem_append] at this
    rcases this with h | h
    · rcases jsInsert_mem.1 h with rfl | h
      · simp
      · simp [h]
    · simp [h]

theorem jsSortAux_pairwise {cmp : α → α → Option Int} (f : α → Int) :
    ∀ (rest acc : List α),
      (∀ x ∈ acc ++ rest, ∀ y ∈ acc ++ rest, cmp x y = some (f y - f x)) →
      List.Pairwise (fun x y => f y ≤ f x) acc →
      List.Pairwise (fun x y => f y ≤ f x) (jsSortAux cmp acc rest) := by
  intro rest
  induction rest with
  | nil => intro acc _ hp; simpa [jsSortAux] using hp
  | cons a t ih =>
    intro acc hc hp
    rw [jsSortAux]
    apply ih
    · intro x hx y hy
      apply hc
      · rcases List.mem_append.1 hx with h | h
        · rcases jsInsert_mem.1 h with rfl | h <;> simp [h]
        · simp [h]
      · rcases List.mem_append.1 hy with h | h
        · rcases jsInsert_mem.1 h with rfl | h <;> simp [h]
        · simp [h]
    · apply jsInsert_pairwise f
      · intro x hx
        exact hc x (by simp [hx]) a (by simp)
      · exact hp

/-- Claim C3 as stated is false: with an unparseable date string the
timestamp is `NaN`, every comparison with `NaN` is false, and so the
descending-adjacent-pairs property fails (here on a two-element list both
of whose elements carry the unparseable date `"not a date"`). -/
theorem c3_claim_false : ¬ claimC3Prop := by
  intro h
  have h2 := h pdNone [projBadDate, projBadDate]
  have he : initSorted pdNone [projBadDate, projBadDate] = [projBadDate, projBadDate] := rfl
  rw [he, List.chain'_cons] at h2
  have hf : tsGeB pdNone projBadDate projBadDate = false := rfl
  rw [hf] at h2
  exact absurd h2.1 (by simp)

/-- Claim C3 amended: after `init`, the collection is sorted descending by
timestamp (a missing date counting as 0) for every input list all of whose
present date strings parse to a number; with an unparseable date the
comparator returns `NaN` and the order is not guaranteed. -/
theorem c3_sorted_of_parseable (pd : List Char → Option Int) (projs : List Project)
    (h : ∀ p ∈ projs, ∀ d, p.date = some d → pd d ≠ none) :
    List.Chain' (fun a b => tsGeB pd a b = true) (initSorted pd projs) := by
  have hsome : ∀ p ∈ projs, tsRaw pd p = some (fval pd p) := by
    intro p hp
    rw [tsRaw, fval]
    cases hd : p.date with
    | none => simp [tsRaw, hd]
    | some d =>
      have := h p hp d hd
      cases hpd : pd d with
      | none => exact absurd hpd this
      | some v => simp [tsRaw, hd, hpd]
  have hc : ∀ x ∈ projs, ∀ y ∈ projs,
      cmpDate pd x y = some (fval pd y - fval pd x) := by
    intro x hx y hy
    rw [cmpDate, hsome x hx, hsome y hy]
  have hpw : List.Pairwise (fun x y => fval pd y ≤ fval pd x) (initSorted pd projs) := by
    rw [initSorted, jsSort]
    exact jsSortAux_pairwise (fval pd) projs [] (by simpa using hc) (by simp)
  have hmem : ∀ x ∈ initSorted pd projs, x ∈ projs := by
    intro x hx
    simpa using jsSortAux_mem projs [] x hx
  refine List.Pairwise.chain' (List.Pairwise.imp_of_mem ?_ hpw)
  intro a b ha hb hle
  rw [tsGeB, hsome a (hmem a ha), hsome b (hmem b hb)]
  simpa using hle

/-- Witness for the amended C3 on a list whose dates all parse. -/
theorem c3_sorted_of_parseable_witness :
    List.Chain' (fun a b => tsGeB pdZero a b = true)
      (initSorted pdZero [badProj, badProj]) :=
  c3_sorted_of_parseable pdZero [badProj, badProj]
    (fun p hp d hd => by
      rcases List.mem_cons.1 hp with rfl | hp
      · simp [badProj] at hd
      · rcases List.mem_cons.1 hp with rfl | hp
        · simp [badProj] at hd
        · simp at hp)

/-! ### Init failure (C5) -/

/-- Claim C5: when the fetch of `data.json` or the parse of its body fails,
`init`'s single catch path renders the error card and the in-memory
collection stays exactly the empty array it was initialized to. -/
theorem c5_init_failure (pd : List Char → Option Int) (e : List Char) :
    runInit pd initialState (.error e) = { allProjects := [], errorShown := true } ∧
    (runInit pd initialState (.error e)).allProjects = initialState.allProjects :=
  ⟨rfl, rfl⟩

/-! ### No mutation (C7) -/

theorem getD_set_ne (l : List (List Project)) (i j : Nat) (v : List Project)
    (h : i ≠ j) : (l.set i v).getD j [] = l.getD j [] := by
  simp [List.getD, List.getElem?_set_ne h]

/-- Claim C7: filtering and the init-time sort never mutate loaded data.
With arrays as store cells: after `init` slices `data.projects` into a
fresh cell and sorts that cell in place, the original cell still holds the
parsed array in its original order; `applyFilters` filters `all` into yet
another fresh cell, leaving the `all` cell (which holds the sorted array)
unchanged. -/
theorem c7_no_mutation (pd : List Char → Option Int) (st : Store) (r : Nat)
    (h : r < st.cells.length) (searchRaw tag : List Char) (sd sa sp : Bool) :
    readC (initArraysOp pd st r).1 r = readC st r ∧
    readC (initArraysOp pd st r).1 (initArraysOp pd st r).2 =
      jsSort (cmpDate pd) (readC st r) ∧
    readC (applyFiltersOp (initArraysOp pd st r).1 (initArraysOp pd st r).2
        searchRaw tag sd sa sp).1 (initArraysOp pd st r).2 =
      readC (initArraysOp pd st r).1 (initArraysOp pd st r).2 := by
  have hne : st.cells.length ≠ r := Nat.ne_of_gt h
  have happ : (st.cells ++ [readC st r]).getD r [] = st.cells.getD r [] :=
    List.getD_append _ _ _ _ h
  refine ⟨?_, ?_, ?_⟩
  · show ((st.cells ++ [readC st r]).set st.cells.length
        (jsSort (cmpDate pd) ((st.cells ++ [readC st r]).getD st.cells.length []))).getD
        r [] = st.cells.getD r []
    rw [getD_set_ne _ _ _ _ hne, happ]
  · show ((st.cells ++ [readC st r]).set st.cells.length
        (jsSort (cmpDate pd) ((st.cells ++ [readC st r]).getD st.cells.length []))).getD
        st.cells.length [] = _
    have hlen : st.cells.length < (st.cells ++ [readC st r]).length := by
      simp
    have hcopy : (st.cells ++ [readC st r]).getD st.cells.length [] = readC st r := by
      rw [List.getD_append_right _ _ _ _ (le_refl _)]
      simp
    rw [List.getD_eq_getElem _ _ (by simp)]
    simp only [List.getElem_set]
    rw [if_pos trivial, hcopy]
  · show (((st.cells ++ [readC st r]).set st.cells.length _ ++ [_]).getD
        st.cells.length []) = _
    apply List.getD_append
    simp [h]

/-- Witness for C7 on a one-cell store. -/
theorem c7_no_mutation_witness :
    readC (initArraysOp pdZero ⟨[[badProj]]⟩ 0).1 0 = readC ⟨[[badProj]]⟩ 0 ∧
    readC (initArraysOp pdZero ⟨[[badProj]]⟩ 0).1 (initArraysOp pdZero ⟨[[badProj]]⟩ 0).2 =
      jsSort (cmpDate pdZero) (readC ⟨[[badProj]]⟩ 0) ∧
    readC (applyFiltersOp (initArraysOp pdZero ⟨[[badProj]]⟩ 0).1
        (initArraysOp pdZero ⟨[[badProj]]⟩ 0).2 [] [] true true true).1
        (initArraysOp pdZero ⟨[[badProj]]⟩ 0).2 =
      readC (initArraysOp pdZero ⟨[[badProj]]⟩ 0).1 (initArraysOp pdZero ⟨[[badProj]]⟩ 0).2 :=
  c7_no_mutation pdZero ⟨[[badProj]]⟩ 0 (by decide) [] [] true true true

/-! ### Token-chain machinery (C1, C6, C8) -/

theorem tokChain_tok {T : List Char → Prop} {t : List Char} (ht : T t) (hne : t ≠ []) :
    TokChain T t := by
  have h := TokChain.cons t [] ht hne TokChain.nil
  simpa using h

theorem tokChain_append {T : List Char → Prop} {a b : List Char}
    (ha : TokChain T a) (hb : TokChain T b) : TokChain T (a ++ b) := by
  induction ha with
  | nil => simpa using hb
  | cons t s ht hne _ ih =>
    rw [List.append_assoc]
    exact TokChain.cons t (s ++ b) ht hne ih

theorem tokChain_mono {T T' : List Char → Prop} (h : ∀ t, T t → T' t) {s : List Char}
    (hs : TokChain T s) : TokChain T' s := by
  induction hs with
  | nil => exact TokChain.nil
  | cons t u ht hne _ ih => exact TokChain.cons t u (h t ht) hne ih

theorem tokChain_of_forall_single {T : List Char → Prop} {l : List Char}
    (h : ∀ c ∈ l, T [c]) : TokChain T l := by
  induction l with
  | nil => exact TokChain.nil
  | cons c r ih =>
    exact TokChain.cons [c] r (h c (by simp)) (by simp)
      (ih (fun d hd => h d (by simp [hd])))

theorem tokChain_not_char {T : List Char → Prop} {c : Char}
    (h : ∀ t, T t → c ∉ t) {s : List Char} (hs : TokChain T s) : c ∉ s := by
  induction hs with
  | nil => simp
  | cons t u ht _ _ ih =>
    intro hc
    rcases List.mem_append.1 hc with hc | hc
    · exact h t ht hc
    · exact ih hc

theorem tokChain_split {T : List Char → Prop} {c : Char}
    (hTok : ∀ t, T t → c ∈ t → t = [c]) :
    ∀ {l : List Char}, TokChain T l → ∀ a b, l = a ++ c :: b → c ∉ a →
      TokChain T a ∧ TokChain T b := by
  intro l h
  induction h with
  | nil =>
    intro a b hab _
    exact absurd hab.symm (by simp)
  | cons t s ht hne hs ih =>
    intro a b hab hca
    rcases List.append_eq_append_iff.1 hab.symm with ⟨m, hm1, hm2⟩ | ⟨m, hm1, hm2⟩
    · -- the split lands inside (or right after) the token t
      cases m with
      | nil =>
        simp only [List.append_nil] at hm1
        have hs' : s = [] ++ c :: b := by simpa using hm2.symm
        obtain ⟨_, cb⟩ := ih [] b hs' (by simp)
        exact ⟨by rw [← hm1]; exact tokChain_tok ht hne, cb⟩
      | cons d m' =>
        have hm2' : c = d ∧ b = m' ++ s := by
          simpa using hm2
        obtain ⟨rfl, hb⟩ := hm2'
        have hct : c ∈ t := by rw [hm1]; simp
        have ht1 : t = [c] := hTok t ht hct
        rw [ht1] at hm1
        have ha : a = [] ∧ m' = [] := by
          cases a with
          | nil =>
            refine ⟨rfl, ?_⟩
            have := hm1
            simp only [List.nil_append, List.cons.injEq] at this
            exact this.2.symm
          | cons x xs =>
            exfalso
            have hlen := congrArg List.length hm1
            simp at hlen
        obtain ⟨rfl, rfl⟩ := ha
        simp only [List.nil_append] at hb
        exact ⟨TokChain.nil, by rw [hb]; exact hs⟩
    · -- the token t is an initial part of a
      have hcm : c ∉ m := fun hc => hca (by rw [hm1]; simp [hc])
      obtain ⟨cm, cb⟩ := ih m b hm2 hcm
      exact ⟨by rw [hm1]; exact TokChain.cons t m ht hne cm, cb⟩

/-! ### `esc` produces entity chains -/

theorem replaceChar_cons (c : Char) (s : List Char) (k : Char) (rep : List Char) :
    replaceChar (c :: s) k rep = (if c = k then rep else [c]) ++ replaceChar s k rep := by
  simp [replaceChar]

theorem esc_nil : esc [] = [] := rfl

theorem esc_cons (c : Char) (s : List Char) : esc (c :: s) = escChar c ++ esc s := by
  by_cases h1 : c = '&'
  · subst h1; rfl
  · by_cases h2 : c = '<'
    · subst h2; rfl
    · by_cases h3 : c = '>'
      · subst h3; rfl
      · by_cases h4 : c = '"'
        · subst h4; rfl
        · show replaceChar (replaceChar (replaceChar (replaceChar (c :: s) _ _) _ _) _ _) _ _ = _
          rw [replaceChar_cons, if_neg h1]
          rw [List.singleton_append, replaceChar_cons, if_neg h2]
          rw [List.singleton_append, replaceChar_cons, if_neg h3]
          rw [List.singleton_append, replaceChar_cons, if_neg h4]
          rw [escChar, if_neg h1, if_neg h2, if_neg h3, if_neg h4]
          rfl

theorem esc_append (a b : List Char) : esc (a ++ b) = esc a ++ esc b := by
  induction a with
  | nil => simp [esc_nil]
  | cons c r ih => rw [List.cons_append, esc_cons, esc_cons, ih, List.append_assoc]

theorem escChar_chain (c : Char) : TokChain EntTok (escChar c) := by
  by_cases h1 : c = '&'
  · subst h1; exact tokChain_tok EntTok.amp (by decide)
  · by_cases h2 : c = '<'
    · subst h2; exact tokChain_tok EntTok.lt (by decide)
    · by_cases h3 : c = '>'
      · subst h3; exact tokChain_tok EntTok.gt (by decide)
      · by_cases h4 : c = '"'
        · subst h4; exact tokChain_tok EntTok.quot (by decide)
        · rw [escChar, if_neg h1, if_neg h2, if_neg h3, if_neg h4]
          exact tokChain_tok (EntTok.safe c h1 h2 h3 h4) (by simp)

theorem esc_chain (s : List Char) : TokChain EntTok (esc s) := by
  induction s with
  | nil => rw [esc_nil]; exact TokChain.nil
  | cons c r ih => rw [esc_cons]; exact tokChain_append (escChar_chain c) ih

theorem entTok_chars {t : List Char} (ht : EntTok t) :
    ∀ c ∈ t, c ≠ '<' ∧ c ≠ '>' ∧ c ≠ '"' := by
  cases ht with
  | safe c h1 h2 h3 h4 =>
    intro d hd
    rw [List.mem_singleton] at hd
    subst hd
    exact ⟨h2, h3, h4⟩
  | amp => decide
  | lt => decide
  | gt => decide
  | quot => decide

theorem tokChain_ent_chars {s : List Char} (hs : TokChain EntTok s) :
    ∀ c ∈ s, c ≠ '<' ∧ c ≠ '>' ∧ c ≠ '"' := by
  induction hs with
  | nil => simp
  | cons t u ht _ _ ih =>
    intro c hc
    rcases List.mem_append.1 hc with hc | hc
    · exact entTok_chars ht c hc
    · exact ih c hc

theorem esc_chars (s : List Char) : ∀ c ∈ esc s, c ≠ '<' ∧ c ≠ '>' ∧ c ≠ '"' :=
  tokChain_ent_chars (esc_chain s)

/-! ### The inline-code pass preserves sanitization -/

theorem splitOnChar_ne_nil (c : Char) (s : List Char) : splitOnChar c s ≠ [] := by
  induction s with
  | nil => simp [splitOnChar]
  | cons d r ih =>
    rw [splitOnChar]
    by_cases h : d = c
    · simp [h]
    · rw [if_neg h]
      cases hx : splitOnChar c r with
      | nil => exact absurd hx ih
      | cons a t => simp [List.modifyHead]

theorem splitOnChar_append_not_mem (c : Char) (t s : List Char) (h : c ∉ t) :
    splitOnChar c (t ++ s) = (splitOnChar c s).modifyHead (t ++ ·) := by
  induction t with
  | nil =>
    cases hx : splitOnChar c s with
    | nil => simp [List.modifyHead, hx]
    | cons a l => simp [List.modifyHead, hx]
  | cons d r ih =>
    have h' : ¬ c = d ∧ c ∉ r := by simpa using h
    have hd : ¬ d = c := fun hh => h'.1 hh.symm
    rw [List.cons_append, splitOnChar, if_neg hd, ih h'.2]
    cases hx : splitOnChar c s with
    | nil => simp [List.modifyHead, hx]
    | cons a l => simp [List.modifyHead, hx]

theorem entTok_tick_single {t : List Char} (ht : EntTok t) (hc : tick ∈ t) :
    t = [tick] := by
  cases ht with
  | safe c _ _ _ _ => rw [List.mem_singleton] at hc; rw [hc]
  | amp => exact absurd hc (by decide)
  | lt => exact absurd hc (by decide)
  | gt => exact absurd hc (by decide)
  | quot => exact absurd hc (by decide)

theorem entTok_tick : EntTok [tick] :=
  EntTok.safe tick (by decide) (by decide) (by decide) (by decide)

theorem splitOnChar_tick_chain {s : List Char} (hs : TokChain EntTok s) :
    ∀ seg ∈ splitOnChar tick s, TokChain EntTok seg := by
  induction hs with
  | nil =>
    intro seg hm
    rw [show splitOnChar tick [] = [[]] from rfl, List.mem_singleton] at hm
    rw [hm]
    exact TokChain.nil
  | cons t u ht hne hu ih =>
    by_cases hct : tick ∈ t
    · rw [entTok_tick_single ht hct]
      intro seg hm
      rw [show ([tick] ++ u : List Char) = tick :: u from rfl] at hm
      rw [splitOnChar, if_pos rfl] at hm
      rcases List.mem_cons.1 hm with rfl | hm
      · exact TokChain.nil
      · exact ih seg hm
    · rw [splitOnChar_append_not_mem tick t u hct]
      intro seg hm
      cases hx : splitOnChar tick u with
      | nil => exact absurd hx (splitOnChar_ne_nil tick u)
      | cons a l =>
        rw [hx] at hm
        simp only [List.modifyHead] at hm
        rcases List.mem_cons.1 hm with rfl | hm
        · exact tokChain_append (tokChain_tok ht hne) (ih a (by rw [hx]; simp))
        · exact ih seg (by rw [hx]; simp [hm])

theorem codeTok_open_chain : TokChain CodeTok codeOpenS :=
  tokChain_tok CodeTok.copen (by decide)

theorem codeTok_close_chain : TokChain CodeTok codeCloseS :=
  tokChain_tok CodeTok.cclose (by decide)

theorem goCode_chain :
    ∀ segs : List (List Char), (∀ seg ∈ segs, TokChain EntTok seg) →
      TokChain CodeTok (goCode segs) := by
  intro segs
  induction segs using goCode.induct with
  | case1 =>
    intro _
    rw [goCode]
    exact TokChain.nil
  | case2 s0 =>
    intro h
    rw [goCode]
    exact tokChain_mono (fun t ht => CodeTok.ent ht) (h s0 (by simp))
  | case3 s0 s1 =>
    intro h
    rw [goCode]
    refine tokChain_append (tokChain_mono (fun t ht => CodeTok.ent ht) (h s0 (by simp))) ?_
    exact TokChain.cons [tick] s1 (CodeTok.ent entTok_tick) (by simp)
      (tokChain_mono (fun t ht => CodeTok.ent ht) (h s1 (by simp)))
  | case4 s0 s2 rest ih =>
    intro h
    rw [goCode, if_pos rfl]
    refine tokChain_append (tokChain_mono (fun t ht => CodeTok.ent ht) (h s0 (by simp))) ?_
    refine TokChain.cons [tick] _ (CodeTok.ent entTok_tick) (by simp) ?_
    refine ih ?_
    intro seg hm
    rcases List.mem_cons.1 hm with rfl | hm
    · exact TokChain.nil
    · exact h seg (by simp at hm ⊢; tauto)
  | case5 s0 s1 s2 rest he ih =>
    intro h
    rw [goCode, if_neg he]
    simp only [List.append_assoc]
    refine tokChain_append (tokChain_mono (fun t ht => CodeTok.ent ht) (h s0 (by simp))) ?_
    refine tokChain_append codeTok_open_chain ?_
    refine tokChain_append (tokChain_mono (fun t ht => CodeTok.ent ht) (h s1 (by simp))) ?_
    refine tokChain_append codeTok_close_chain ?_
    refine ih ?_
    intro seg hm
    exact h seg (by simp at hm ⊢; tauto)

theorem replaceCode_chain {s : List Char} (hs : TokChain EntTok s) :
    TokChain CodeTok (replaceCode s) :=
  goCode_chain _ (splitOnChar_tick_chain hs)

/-! ### The link pass preserves sanitization -/

theorem breakAt_eq {c : Char} :
    ∀ {s a b : List Char}, breakAt c s = some (a, b) → s = a ++ c :: b ∧ c ∉ a := by
  intro s
  induction s with
  | nil => intro a b h; simp [breakAt] at h
  | cons d r ih =>
    intro a b h
    rw [breakAt] at h
    by_cases hd : d = c
    · rw [if_pos hd] at h
      have h' : ([] : List Char) = a ∧ r = b := by simpa using h
      obtain ⟨rfl, rfl⟩ := h'
      exact ⟨by rw [hd]; rfl, by simp⟩
    · rw [if_neg hd] at h
      cases hx : breakAt c r with
      | none => rw [hx] at h; simp at h
      | some p =>
        obtain ⟨a', b'⟩ := p
        rw [hx] at h
        have h' : d :: a' = a ∧ b' = b := by simpa using h
        obtain ⟨rfl, rfl⟩ := h'
        obtain ⟨h1, h2⟩ := ih hx
        refine ⟨by rw [h1]; simp, ?_⟩
        intro hc
        rcases List.mem_cons.1 hc with rfl | hc
        · exact hd rfl
        · exact h2 hc

theorem parseLink_eq {s t u r : List Char} (h : parseLink s = some (t, u, r)) :
    s = t ++ ']' :: '(' :: (u ++ ')' :: r) ∧ t ≠ [] ∧ u ≠ [] ∧ ']' ∉ t ∧ ')' ∉ u := by
  rw [parseLink] at h
  split at h
  · simp at h
  next text rest1 h1 =>
    split at h
    · simp at h
    next ht =>
      split at h
      · simp at h
      next c2 rest2 =>
        split at h
        next hc2 =>
          split at h
          · simp at h
          next url rest3 h2 =>
            split at h
            · simp at h
            next hu =>
              have h' : text = t ∧ url = u ∧ rest3 = r := by simpa using h
              obtain ⟨rfl, rfl, rfl⟩ := h'
              obtain ⟨e1, e2⟩ := breakAt_eq h1
              obtain ⟨e3, e4⟩ := breakAt_eq h2
              subst hc2
              rw [e3] at e1
              exact ⟨e1, ht, hu, e2, e4⟩
        next hc2 => simp at h

theorem entTok_char_single (c : Char) {t : List Char}
    (hne : c ∉ ampEnt ∧ c ∉ ltEnt ∧ c ∉ gtEnt ∧ c ∉ quotEnt)
    (ht : EntTok t) (hc : c ∈ t) : t = [c] := by
  cases ht with
  | safe d _ _ _ _ => rw [List.mem_singleton] at hc; rw [hc]
  | amp => exact absurd hc hne.1
  | lt => exact absurd hc hne.2.1
  | gt => exact absurd hc hne.2.2.1
  | quot => exact absurd hc hne.2.2.2

theorem codeTok_char_single (c : Char)
    (hne : c ∉ ampEnt ∧ c ∉ ltEnt ∧ c ∉ gtEnt ∧ c ∉ quotEnt ∧ c ∉ codeOpenS ∧ c ∉ codeCloseS) :
    ∀ t, CodeTok t → c ∈ t → t = [c] := by
  intro t ht hc
  cases ht with
  | ent he => exact entTok_char_single c ⟨hne.1, hne.2.1, hne.2.2.1, hne.2.2.2.1⟩ he hc
  | copen => exact absurd hc hne.2.2.2.2.1
  | cclose => exact absurd hc hne.2.2.2.2.2

theorem startsWith_append_self (p x : List Char) : startsWithL p (p ++ x) = true :=
  (startsWithL_iff p (p ++ x)).2 ⟨x, rfl⟩

theorem isSafeUrl_esc {u : List Char} (h : isSafeUrlL u = true) :
    isSafeUrlL (esc u) = true := by
  have hp : ∀ pfx : List Char, esc pfx = pfx → startsWithL pfx u = true →
      startsWithL pfx (esc u) = true := by
    intro pfx hpfx hs
    obtain ⟨rest, rfl⟩ := (startsWithL_iff _ _).1 hs
    rw [esc_append, hpfx]
    exact startsWith_append_self _ _
  simp only [isSafeUrlL, Bool.or_eq_true] at h ⊢
  rcases h with ((((h | h) | h) | h) | h)
  · exact Or.inl (Or.inl (Or.inl (Or.inl (hp _ (by decide) h))))
  · exact Or.inl (Or.inl (Or.inl (Or.inr (hp _ (by decide) h))))
  · exact Or.inl (Or.inl (Or.inr (hp _ (by decide) h)))
  · exact Or.inl (Or.inr (hp _ (by decide) h))
  · exact Or.inr (hp _ (by decide) h)

theorem esc_chain_as_link (s : List Char) : TokChain LinkTok (esc s) :=
  tokChain_mono (fun _ ht => LinkTok.code (CodeTok.ent ht)) (esc_chain s)

theorem linkRepl_chain (t u : List Char) : TokChain LinkTok (linkRepl t u) := by
  rw [linkRepl]
  by_cases hs : isSafeUrlL (trimB u) = true
  · simp only [hs, if_true]
    simp only [List.append_assoc]
    refine tokChain_append ?_ (tokChain_append (esc_chain_as_link t) ?_)
    · refine tokChain_tok
        (LinkTok.aopen (esc (trimB u)) (esc_chars (trimB u)) (isSafeUrl_esc hs)) ?_
      simp [aOpenOf]
    · exact tokChain_tok LinkTok.aclose (by decide)
  · simp only [Bool.not_eq_true] at hs
    simp only [hs, Bool.false_eq_true, if_false]
    exact esc_chain_as_link t

theorem replaceLinksF_chain :
    ∀ (fuel : Nat) (s : List Char), s.length < fuel →
      TokChain CodeTok s → TokChain LinkTok (replaceLinksF fuel s) := by
  intro fuel
  induction fuel with
  | zero => intro s hlen _; exact absurd hlen (by omega)
  | succ n ih =>
    intro s hlen hs
    rw [replaceLinksF]
    split
    · exact tokChain_mono (fun t ht => LinkTok.code ht) hs
    next pre rest h1 =>
      obtain ⟨e1, e2⟩ := breakAt_eq h1
      obtain ⟨cpre, crest⟩ :=
        tokChain_split (codeTok_char_single '[' (by decide)) hs pre rest e1 e2
      have hrlen : rest.length < n := by
        have := congrArg List.length e1
        simp at this
        omega
      split
      next h2 =>
        refine tokChain_append (tokChain_mono (fun t ht => LinkTok.code ht) cpre) ?_
        exact TokChain.cons ['['] _
          (LinkTok.code (CodeTok.ent
            (EntTok.safe '[' (by decide) (by decide) (by decide) (by decide))))
          (by simp) (ih rest hrlen crest)
      next t u r h2 =>
        obtain ⟨e3, ht, hu, hnt, hnu⟩ := parseLink_eq h2
        obtain ⟨_, c1⟩ :=
          tokChain_split (codeTok_char_single ']' (by decide)) crest t
            ('(' :: (u ++ ')' :: r)) e3 hnt
        obtain ⟨_, c2⟩ :=
          tokChain_split (codeTok_char_single '(' (by decide)) c1 []
            (u ++ ')' :: r) rfl (by simp)
        obtain ⟨_, cr⟩ :=
          tokChain_split (codeTok_char_single ')' (by decide)) c2 u r rfl hnu
        have hr2 : r.length < n := by
          have h3 := congrArg List.length e3
          simp at h3
          omega
        simp only [List.append_assoc]
        exact tokChain_append (tokChain_mono (fun x hx => LinkTok.code hx) cpre)
          (tokChain_append (linkRepl_chain t u) (ih r hr2 cr))

theorem replaceLinks_chain {s : List Char} (hs : TokChain CodeTok s) :
    TokChain LinkTok (replaceLinks s) :=
  replaceLinksF_chain (s.length + 1) s (Nat.lt_succ_self _) hs

theorem inline_chain (s : List Char) : TokChain LinkTok (inline s) :=
  replaceLinks_chain (replaceCode_chain (esc_chain s))

/-! ### The line loop and C1 -/

theorem wrapperTags_ne_nil : ∀ t ∈ wrapperTags, t ≠ [] := by decide

theorem entry_chain {o cl : List Char} (x : List Char) (ho : o ∈ wrapperTags)
    (hc : cl ∈ wrapperTags) : TokChain SanTok (o ++ inline x ++ cl) := by
  rw [List.append_assoc]
  refine tokChain_append (tokChain_tok (SanTok.tag ho) (wrapperTags_ne_nil o ho)) ?_
  refine tokChain_append
    (tokChain_mono (fun t ht => SanTok.link ht) (inline_chain x)) ?_
  exact tokChain_tok (SanTok.tag hc) (wrapperTags_ne_nil cl hc)

theorem closeL_chain (b : Bool) : ∀ e ∈ closeL b, TokChain SanTok e := by
  intro e he
  cases b with
  | false => simp [closeL] at he
  | true =>
    rw [closeL, if_pos rfl, List.mem_singleton] at he
    rw [he]
    exact tokChain_tok (SanTok.tag (by decide)) (by decide)

theorem ulOpen_chain : TokChain SanTok ulOpenS :=
  tokChain_tok (SanTok.tag (by decide)) (by decide)

theorem mdLoop_entries_chain :
    ∀ (ls : List (List Char)) (b : Bool), ∀ e ∈ mdLoop b ls, TokChain SanTok e := by
  intro ls
  induction ls with
  | nil =>
    intro b e he
    rw [mdLoop] at he
    exact closeL_chain b e he
  | cons raw ls ih =>
    intro b e he
    rw [mdLoop] at he
    split at he
    · rcases List.mem_append.1 he with he | he
      · exact closeL_chain b e he
      · exact ih false e he
    · rcases List.mem_append.1 he with he | he
      · exact closeL_chain b e he
      · rcases List.mem_cons.1 he with rfl | he
        · exact entry_chain _ (by decide) (by decide)
        · exact ih false e he
    · rcases List.mem_append.1 he with he | he
      · exact closeL_chain b e he
      · rcases List.mem_cons.1 he with rfl | he
        · exact entry_chain _ (by decide) (by decide)
        · exact ih false e he
    · rcases List.mem_append.1 he with he | he
      · exact closeL_chain b e he
      · rcases List.mem_cons.1 he with rfl | he
        · exact entry_chain _ (by decide) (by decide)
        · exact ih false e he
    · rcases List.mem_append.1 he with he | he
      · exact closeL_chain b e he
      · rcases List.mem_cons.1 he with rfl | he
        · exact entry_chain _ (by decide) (by decide)
        · exact ih false e he
    · rcases List.mem_append.1 he with he | he
      · cases b with
        | true => simp at he
        | false =>
          have he' : e = ulOpenS := by simpa using he
          rw [he']
          exact ulOpen_chain
      · rcases List.mem_cons.1 he with rfl | he
        · exact entry_chain _ (by decide) (by decide)
        · exact ih true e he
    · rcases List.mem_append.1 he with he | he
      · exact closeL_chain b e he
      · rcases List.mem_cons.1 he with rfl | he
        · exact entry_chain _ (by decide) (by decide)
        · exact ih false e he

theorem joinNl_chain :
    ∀ l : List (List Char), (∀ e ∈ l, TokChain SanTok e) → TokChain SanTok (joinNl l) := by
  intro l
  induction l with
  | nil => intro _; exact TokChain.nil
  | cons x r ih =>
    intro h
    cases r with
    | nil => rw [joinNl]; exact h x (by simp)
    | cons y t =>
      rw [joinNl]
      refine tokChain_append (h x (by simp)) ?_
      refine TokChain.cons ['\n'] _
        (SanTok.link (LinkTok.code (CodeTok.ent
          (EntTok.safe '\n' (by decide) (by decide) (by decide) (by decide)))))
        (by simp) ?_
      exact ih (fun e he => h e (by simp [he]))

/-- Claim C1: for every input, the HTML produced by `mdToHtml` carries no
raw HTML over from the input: the output is a concatenation of tokens,
each of which is a harmless character (none of `& < > "`), one of the four
escape entities `&amp; &lt; &gt; &quot;` (so every such input character is
emitted escaped, possibly escaped twice inside link replacements), or a
tag the converter itself generates (`p`, `h1`-`h3`, `ul`, `li`,
`blockquote`, `code`, the anchor with an entity-free, whitelist-safe href,
and `</a>`). -/
theorem c1_mdToHtml_sanitized (md : List Char) : TokChain SanTok (mdToHtml md) := by
  rw [mdToHtml, mdEntries]
  exact joinNl_chain _ (fun e he => mdLoop_entries_chain _ false e he)

/-! ### No nested lists (C6) -/

theorem hasLtU_single (c : Char) : hasLtU [c] = false := rfl

theorem endsLt_append_right (t s : List Char) (h : s ≠ []) :
    endsLt (t ++ s) = endsLt s := by
  rw [endsLt, endsLt, List.getLast?_append_of_ne_nil t h]

theorem hasLtU_append (t s : List Char) (h1 : hasLtU t = false) (h2 : hasLtU s = false)
    (h3 : endsLt t = false ∨ headU s = false) : hasLtU (t ++ s) = false := by
  induction t with
  | nil => simpa using h2
  | cons c t ih =>
    cases t with
    | nil =>
      cases s with
      | nil => rfl
      | cons d r =>
        rw [List.singleton_append, hasLtU, Bool.or_eq_false_iff]
        refine ⟨?_, h2⟩
        rcases h3 with h3 | h3
        · have hc : ¬ c = '<' := by simpa [endsLt] using h3
          simp [hc]
        · have hd : ¬ d = 'u' := by simpa [headU] using h3
          simp [hd]
    | cons c2 t2 =>
      rw [hasLtU, Bool.or_eq_false_iff] at h1
      have h3' : endsLt (c2 :: t2) = false ∨ headU s = false := by
        rcases h3 with h3 | h3
        · exact Or.inl (by simpa [endsLt] using h3)
        · exact Or.inr h3
      have := ih h1.2 h3'
      rw [List.cons_append, List.cons_append, hasLtU, Bool.or_eq_false_iff]
      exact ⟨h1.1, by simpa using this⟩

theorem hasLtU_of_no_lt {s : List Char} (h : '<' ∉ s) : hasLtU s = false := by
  induction s with
  | nil => rfl
  | cons c t ih =>
    have hc : ¬ c = '<' := fun hh => h (by simp [hh])
    have ht : '<' ∉ t := fun hh => h (by simp [hh])
    cases t with
    | nil => rfl
    | cons d r =>
      rw [hasLtU, Bool.or_eq_false_iff]
      exact ⟨by simp [hc], ih ht⟩

theorem endsLt_of_no_lt {s : List Char} (h : '<' ∉ s) : endsLt s = false := by
  rw [endsLt]
  cases hx : s.getLast? with
  | none => rfl
  | some c =>
    have hc : c ∈ s := by
      obtain ⟨hne, rfl⟩ := List.mem_getLast?_eq_getLast (l := s) (x := c) (by simp [hx])
      exact List.getLast_mem hne
    have : ¬ c = '<' := fun hh => h (hh ▸ hc)
    simp [this]

theorem entTok_chain_no_lt {u : List Char} (h : ∀ c ∈ u, c ≠ '<' ∧ c ≠ '>' ∧ c ≠ '"') :
    '<' ∉ u := fun hc => (h '<' hc).1 rfl

theorem linkTok_ltu {t : List Char} (ht : LinkTok t) :
    hasLtU t = false ∧ endsLt t = false := by
  cases ht with
  | code hc =>
    cases hc with
    | ent he =>
      cases he with
      | safe c h1 h2 h3 h4 =>
        refine ⟨hasLtU_single c, ?_⟩
        simp [endsLt, h2]
      | amp => exact ⟨by decide, by decide⟩
      | lt => exact ⟨by decide, by decide⟩
      | gt => exact ⟨by decide, by decide⟩
      | quot => exact ⟨by decide, by decide⟩
    | copen => exact ⟨by decide, by decide⟩
    | cclose => exact ⟨by decide, by decide⟩
  | aclose => exact ⟨by decide, by decide⟩
  | aopen u hu hsafe =>
    have hnu : '<' ∉ u := entTok_chain_no_lt hu
    have h1 : hasLtU ("<a href=\"".toList ++ u) = false := by
      refine hasLtU_append _ _ (by decide) (hasLtU_of_no_lt hnu) (Or.inl (by decide))
    constructor
    · rw [aOpenOf]
      refine hasLtU_append _ _ h1 (by decide) (Or.inr (by decide))
    · rw [aOpenOf, endsLt_append_right _ _ (by decide)]
      decide

theorem tokChain_link_ltu {s : List Char} (hs : TokChain LinkTok s) :
    hasLtU s = false ∧ endsLt s = false := by
  induction hs with
  | nil => exact ⟨rfl, rfl⟩
  | cons t u ht hne hu ih =>
    obtain ⟨t1, t2⟩ := linkTok_ltu ht
    cases hu with
    | nil =>
      constructor
      · simpa using t1
      · simpa using t2
    | cons t' s' ht' hne' hs' =>
      have hu' : TokChain LinkTok (t' ++ s') := TokChain.cons t' s' ht' hne' hs'
      constructor
      · refine hasLtU_append _ _ t1 ih.1 (Or.inl t2)
      · rw [endsLt_append_right _ _ (by simp [hne'])]
        exact ih.2

theorem entry_ltu {o cl : List Char} (x : List Char)
    (ho : hasLtU o = false) (hoe : endsLt o = false)
    (hc : hasLtU cl = false) (_hcne : cl ≠ []) :
    hasLtU (o ++ inline x ++ cl) = false := by
  obtain ⟨m1, m2⟩ := tokChain_link_ltu (inline_chain x)
  rw [List.append_assoc]
  refine hasLtU_append _ _ ho ?_ (Or.inl hoe)
  refine hasLtU_append _ _ m1 hc (Or.inl m2)

theorem ulScan_step {e : List Char} (r : List (List Char)) (b : Bool)
    (h1 : e ≠ ulOpenS) (h2 : e ≠ ulCloseS) (h3 : hasLtU e = false) :
    ulScan b (e :: r) = ulScan b r := by
  rw [ulScan, if_neg h1, if_neg h2, h3]
  simp

theorem ulScan_mdLoop : ∀ (ls : List (List Char)) (b : Bool),
    ulScan b (mdLoop b ls) = true := by
  intro ls
  induction ls with
  | nil =>
    intro b
    cases b with
    | false => rfl
    | true => rfl
  | cons raw ls ih =>
    intro b
    rw [mdLoop]
    split
    · cases b with
      | false => exact ih false
      | true =>
        show ulScan true (ulCloseS :: mdLoop false ls) = true
        rw [ulScan, if_neg (by decide), if_pos rfl]
        simpa using ih false
    all_goals try (
      cases b with
      | false =>
        rw [show closeL false = [] from rfl, List.nil_append]
        rw [ulScan_step _ false (by simp [ulOpenS]) (by simp [ulCloseS])
          (entry_ltu _ (by decide) (by decide) (by decide) (by decide))]
        exact ih false
      | true =>
        rw [show closeL true = [ulCloseS] from rfl, List.singleton_append]
        rw [ulScan, if_neg (by decide), if_pos rfl]
        rw [ulScan_step _ false (by simp [ulOpenS]) (by simp [ulCloseS])
          (entry_ltu _ (by decide) (by decide) (by decide) (by decide))]
        simpa using ih false)
    · -- list item line
      cases b with
      | false =>
        show ulScan false (ulOpenS :: _ :: mdLoop true ls) = true
        rw [ulScan, if_pos rfl]
        rw [ulScan_step _ true (by simp [ulOpenS]) (by simp [ulCloseS])
          (entry_ltu _ (by decide) (by decide) (by decide) (by decide))]
        simpa using ih true
      | true =>
        show ulScan true (_ :: mdLoop true ls) = true
        rw [ulScan_step _ true (by simp [ulOpenS]) (by simp [ulCloseS])
          (entry_ltu _ (by decide) (by decide) (by decide) (by decide))]
        exact ih true

/-- Claim C6: `mdToHtml` never nests lists: in the emitted fragment array a
`<ul>` opens only when no list is open, `</ul>` closes the one open list
(the loop closes it at the first blank or non-list line and at
end-of-input), the scan ends with no list open, and no other fragment even
contains the characters `<u` — so no `<ul>` element ever contains another
`<ul>`. -/
theorem c6_no_nested_lists (md : List Char) : ulScan false (mdEntries md) = true := by
  rw [mdEntries]
  exact ulScan_mdLoop _ false

/-! ### The link whitelist (C8) -/

theorem esc_eq_self {s : List Char}
    (h : ∀ c ∈ s, c ≠ '&' ∧ c ≠ '<' ∧ c ≠ '>' ∧ c ≠ '"') : esc s = s := by
  induction s with
  | nil => rfl
  | cons c t ih =>
    obtain ⟨h1, h2, h3, h4⟩ := h c (by simp)
    rw [esc_cons, escChar, if_neg h1, if_neg h2, if_neg h3, if_neg h4,
      ih (fun d hd => h d (by simp [hd]))]
    rfl

theorem splitOnChar_no_char {c : Char} {s : List Char} (h : c ∉ s) :
    splitOnChar c s = [s] := by
  induction s with
  | nil => rfl
  | cons d t ih =>
    have hd : ¬ d = c := fun hh => h (by simp [hh])
    have ht : c ∉ t := fun hh => h (by simp [hh])
    rw [splitOnChar, if_neg hd, ih ht]
    rfl

theorem replaceCode_id {s : List Char} (h : tick ∉ s) : replaceCode s = s := by
  rw [replaceCode, splitOnChar_no_char h, goCode]

theorem mem_trimStartL {c : Char} {s : List Char} (h : c ∈ trimStartL s) : c ∈ s := by
  obtain ⟨a, ha⟩ := dropWhile_is_suffix isJsSpace s
  rw [show s.dropWhile isJsSpace = trimStartL s from rfl] at ha
  rw [ha]
  simp [h]

theorem mem_trimB {c : Char} {s : List Char} (h : c ∈ trimB s) : c ∈ s := by
  rw [trimB] at h
  obtain ⟨b, hb⟩ := trimEnd_is_a_start (trimStartL s)
  have h2 : c ∈ trimStartL s := by rw [hb]; simp [h]
  exact mem_trimStartL h2

theorem breakAt_of_not_mem (c : Char) (t s : List Char) (h : c ∉ t) :
    breakAt c (t ++ c :: s) = some (t, s) := by
  induction t with
  | nil => rw [List.nil_append, breakAt, if_pos rfl]
  | cons d r ih =>
    have hd : ¬ d = c := fun hh => h (by simp [hh])
    have hr : c ∉ r := fun hh => h (by simp [hh])
    rw [List.cons_append, breakAt, if_neg hd, ih hr]
    rfl

theorem replaceLinksF_nil : ∀ n : Nat, replaceLinksF n [] = [] := by
  intro n
  cases n with
  | zero => rfl
  | succ m => rfl

/-- Claim C8: a markdown link `[text](url)` is rendered as an anchor only
when the trimmed url starts with `http://`, `https://`, `/`, `./` or
`../`; for every other url (e.g. a `javascript:` scheme) the construct is
replaced by the link text alone, with no anchor in the output.  `text` and
`url` here range over nonempty strings of characters that are inert for
the escaping and the two regexes (no `& < > "`, backtick or bracket), so
escaping them is the identity. -/
theorem c8_link_whitelist (text url : List Char)
    (htne : text ≠ []) (hune : url ≠ [])
    (ht : ∀ c ∈ text, plainChar c = true) (hu : ∀ c ∈ url, plainChar c = true) :
    inline (linkSrc text url) =
      if isSafeUrlL (trimB url) then aOpenOf (trimB url) ++ text ++ aCloseS
      else text := by
  have htc : ∀ c ∈ text, c ≠ '&' ∧ c ≠ '<' ∧ c ≠ '>' ∧ c ≠ '"' ∧ c ≠ tick ∧
      c ≠ '[' ∧ c ≠ ']' ∧ c ≠ '(' ∧ c ≠ ')' := by
    intro c hc
    have := ht c hc
    simp [plainChar] at this
    tauto
  have huc : ∀ c ∈ url, c ≠ '&' ∧ c ≠ '<' ∧ c ≠ '>' ∧ c ≠ '"' ∧ c ≠ tick ∧
      c ≠ '[' ∧ c ≠ ']' ∧ c ≠ '(' ∧ c ≠ ')' := by
    intro c hc
    have := hu c hc
    simp [plainChar] at this
    tauto
  have hesc : esc (linkSrc text url) = linkSrc text url := by
    apply esc_eq_self
    intro c hc
    rw [linkSrc] at hc
    rcases List.mem_cons.1 hc with rfl | hc
    · exact ⟨by decide, by decide, by decide, by decide⟩
    rcases List.mem_append.1 hc with hc | hc
    · obtain ⟨a1, a2, a3, a4, _⟩ := htc c hc
      exact ⟨a1, a2, a3, a4⟩
    rcases List.mem_cons.1 hc with rfl | hc
    · exact ⟨by decide, by decide, by decide, by decide⟩
    rcases List.mem_cons.1 hc with rfl | hc
    · exact ⟨by decide, by decide, by decide, by decide⟩
    rcases List.mem_append.1 hc with hc | hc
    · obtain ⟨a1, a2, a3, a4, _⟩ := huc c hc
      exact ⟨a1, a2, a3, a4⟩
    · rcases List.mem_singleton.1 hc with rfl
      exact ⟨by decide, by decide, by decide, by decide⟩
  have hcode : replaceCode (linkSrc text url) = linkSrc text url := by
    apply replaceCode_id
    intro hc
    rw [linkSrc] at hc
    rcases List.mem_cons.1 hc with hc | hc
    · exact absurd hc.symm (by decide)
    rcases List.mem_append.1 hc with hc | hc
    · exact (htc tick hc).2.2.2.2.1 rfl
    rcases List.mem_cons.1 hc with hc | hc
    · exact absurd hc.symm (by decide)
    rcases List.mem_cons.1 hc with hc | hc
    · exact absurd hc.symm (by decide)
    rcases List.mem_append.1 hc with hc | hc
    · exact (huc tick hc).2.2.2.2.1 rfl
    · rcases List.mem_singleton.1 hc with hc
      exact absurd hc.symm (by decide)
  have hb : breakAt '[' (linkSrc text url) =
      some ([], text ++ ']' :: '(' :: (url ++ [')'])) := by
    rw [linkSrc, breakAt, if_pos rfl]
  have h1 : breakAt ']' (text ++ ']' :: ('(' :: (url ++ [')']))) =
      some (text, '(' :: (url ++ [')'])) :=
    breakAt_of_not_mem ']' text _ (fun hc => (htc ']' hc).2.2.2.2.2.2.1 rfl)
  have h2 : breakAt ')' (url ++ [')']) = some (url, []) := by
    have := breakAt_of_not_mem ')' url [] (fun hc => (huc ')' hc).2.2.2.2.2.2.2.2 rfl)
    simpa using this
  have hp : parseLink (text ++ ']' :: '(' :: (url ++ [')'])) = some (text, url, []) := by
    rw [parseLink]
    rw [show (text ++ ']' :: '(' :: (url ++ [')'])) =
      (text ++ ']' :: ('(' :: (url ++ [')']))) from rfl]
    rw [h1]
    simp only [htne, if_neg, if_pos rfl, h2, hune]
    simp [htne, hune, h2]
  rw [inline, hesc, hcode, replaceLinks, replaceLinksF]
  simp only [hb, hp]
  rw [replaceLinksF_nil]
  rw [linkRepl]
  have hesc2 : esc text = text :=
    esc_eq_self (fun c hc => ⟨(htc c hc).1, (htc c hc).2.1, (htc c hc).2.2.1,
      (htc c hc).2.2.2.1⟩)
  have hesc3 : esc (trimB url) = trimB url :=
    esc_eq_self (fun c hc => ⟨(huc c (mem_trimB hc)).1, (huc c (mem_trimB hc)).2.1,
      (huc c (mem_trimB hc)).2.2.1, (huc c (mem_trimB hc)).2.2.2.1⟩)
  rw [hesc2, hesc3]
  by_cases hs : isSafeUrlL (trimB url) = true
  · simp [hs]
  · simp only [Bool.not_eq_true] at hs
    simp [hs]

/-- Witness for C8: a `javascript:` url yields no anchor, only the text. -/
theorem c8_link_whitelist_witness :
    inline (linkSrc "x".toList "javascript:alert".toList) = "x".toList := by
  have h := c8_link_whitelist "x".toList "javascript:alert".toList
    (by decide) (by decide) (by decide) (by decide)
  rw [h]
  decide

/-! ### RSS item counting (C9) -/

theorem startsWith_itemPat_head {c : Char} (z : List Char) (h : ¬ c = '<') :
    startsWithL itemPat (c :: z) = false := by
  rw [itemPat]
  show startsWithL ('<' :: _) (c :: z) = false
  rw [startsWithL]
  have : ¬ '<' = c := fun hh => h hh.symm
  simp [this]

theorem countItem_append_left (x y : List Char) (h : hasLt x = false) :
    countItem (x ++ y) = countItem y := by
  induction x with
  | nil => rfl
  | cons c r ih =>
    rw [hasLt, hasChar, Bool.or_eq_false_iff] at h
    rw [List.cons_append, countItem,
      startsWith_itemPat_head _ (by simpa using h.1)]
    simpa using ih h.2

theorem countItem_no_lt {x : List Char} (h : hasLt x = false) : countItem x = 0 := by
  have := countItem_append_left x [] h
  simpa using this

theorem startsWithL_append_of_le (p z y : List Char) (h : p.length ≤ z.length) :
    startsWithL p (z ++ y) = startsWithL p z := by
  induction p generalizing z with
  | nil => rfl
  | cons a ps ih =>
    cases z with
    | nil => simp at h
    | cons c zs =>
      rw [List.cons_append, startsWithL, startsWithL, ih zs (by simpa using h)]

theorem countItem_append_safe (x y : List Char)
    (h : hasLt (x.drop (x.length - 5)) = false) :
    countItem (x ++ y) = countItem x + countItem y := by
  induction x with
  | nil => simp [countItem]
  | cons c r ih =>
    by_cases hlen : 5 ≤ r.length
    · have hdrop : (c :: r).drop ((c :: r).length - 5) = r.drop (r.length - 5) := by
        rw [List.length_cons]
        rw [show r.length + 1 - 5 = (r.length - 5) + 1 by omega]
        rfl
      rw [hdrop] at h
      rw [List.cons_append, countItem, countItem, ih h]
      have hfit : startsWithL itemPat (c :: r ++ y) = startsWithL itemPat (c :: r) := by
        have := startsWithL_append_of_le itemPat (c :: r) y
          (by rw [itemPat]; simp; omega)
        simpa using this
      rw [show (c :: (r ++ y)) = (c :: r ++ y) from rfl, hfit]
      omega
    · have h0 : (c :: r).length - 5 = 0 := by
        rw [List.length_cons]
        omega
      rw [h0, List.drop_zero] at h
      rw [countItem_append_left _ y h, countItem_no_lt h]
      omega

theorem countItem_itemXml (base now : List Char) (utc : List Char → List Char)
    (rnd : List Char) (p : Project) (rest : List Char)
    (hc : itemClean base now utc rnd p) :
    countItem (itemXml base now utc rnd p ++ rest) = 1 + countItem rest := by
  obtain ⟨h1, h2, h3, h4, h5⟩ := hc
  rw [itemXml]
  simp only [List.append_assoc]
  rw [countItem_append_safe iS1 _ (by decide),
      countItem_append_left _ _ h1,
      countItem_append_safe iS2 _ (by decide),
      countItem_append_left _ _ h3,
      countItem_append_safe iS3 _ (by decide),
      countItem_append_left _ _ h2,
      countItem_append_safe iS4 _ (by decide),
      countItem_append_left _ _ h4,
      countItem_append_safe iS5 _ (by decide),
      countItem_append_left _ _ h5,
      countItem_append_safe iS6 _ (by decide)]
  rw [show countItem iS1 = 1 from by decide, show countItem iS2 = 0 from by decide,
      show countItem iS3 = 0 from by decide, show countItem iS4 = 0 from by decide,
      show countItem iS5 = 0 from by decide, show countItem iS6 = 0 from by decide]
  omega

theorem countItem_flatten (base now : List Char) (utc : List Char → List Char)
    (rnd : List Char) :
    ∀ (l : List Project) (tail : List Char),
      (∀ p ∈ l, itemClean base now utc rnd p) →
      countItem ((l.map (itemXml base now utc rnd)).flatten ++ tail) =
        l.length + countItem tail := by
  intro l
  induction l with
  | nil => intro tail _; simp
  | cons p r ih =>
    intro tail hc
    rw [List.map_cons, List.flatten_cons, List.append_assoc]
    rw [countItem_itemXml base now utc rnd p _ (hc p (by simp))]
    rw [ih tail (fun q hq => hc q (by simp [hq]))]
    rw [List.length_cons]
    omega

/-- Claim C9: the feed built by `makeRSS` holds exactly one `<item>` for
each of the first `min 30 n` projects of the `n`-element list, in list
order (the second conjunct exhibits the feed as header, the mapped first
30 items in order, footer), and hence at most 30 items; counting `<item>`
occurrences literally requires that the interpolated strings contain no
raw `<` (title/description/link/date/guid text with a `<` would be pasted
verbatim and could fake or break an `<item>`). -/
theorem c9_rss_item_count (base now : List Char) (utc : List Char → List Char)
    (rnd : List Char) (items : List Project)
    (hbase : hasLt base = false)
    (hcl : ∀ p ∈ items, itemClean base now utc rnd p) :
    countItem (makeRSS base now utc rnd items) = min 30 items.length ∧
    makeRSS base now utc rnd items =
      rssH1 ++ base ++ rssH2 ++
        ((items.take 30).map (itemXml base now utc rnd)).flatten ++ rssF := by
  refine ⟨?_, rfl⟩
  rw [makeRSS]
  simp only [List.append_assoc]
  rw [countItem_append_safe rssH1 _ (by decide),
      countItem_append_left _ _ hbase,
      countItem_append_safe rssH2 _ (by decide),
      countItem_flatten base now utc rnd (items.take 30) rssF
        (fun p hp => hcl p (List.take_subset 30 items hp))]
  rw [show countItem rssH1 = 0 from by decide, show countItem rssH2 = 0 from by decide,
      show countItem rssF = 0 from by decide, List.length_take]
  omega

/-- Witness for C9 on a one-project list with `<`-free fields. -/
theorem c9_rss_item_count_witness :
    countItem (makeRSS "b".toList [] (fun _ => []) [] [badProj]) =
      min 30 (List.length [badProj]) ∧
    makeRSS "b".toList [] (fun _ => []) [] [badProj] =
      rssH1 ++ "b".toList ++ rssH2 ++
        (([badProj].take 30).map (itemXml "b".toList [] (fun _ => []) [])).flatten ++
        rssF :=
  c9_rss_item_count "b".toList [] (fun _ => []) [] [badProj] (by decide)
    (by
      intro p hp
      rw [List.mem_singleton] at hp
      subst hp
      exact ⟨by decide, by decide, by decide, by decide, by decide⟩)

/-! ### CDATA is not escaped (C10) -/

/-- Claim C10: `makeRSS` embeds each project's title and description
verbatim inside CDATA sections (first two conjuncts), and for a project
whose description contains the CDATA terminator `]]>` the produced feed
carries that terminator inside the `<description>` CDATA section (last two
conjuncts), so the string does not delimit CDATA correctly. -/
theorem c10_cdata_verbatim :
    (∀ (base now : List Char) (utc : List Char → List Char) (rnd : List Char)
        (p : Project), ∃ a b, itemXml base now utc rnd p =
          a ++ (titleCdataOpen ++ p.title ++ cdataCloseS) ++ b) ∧
    (∀ (base now : List Char) (utc : List Char → List Char) (rnd : List Char)
        (p : Project), ∃ a b, itemXml base now utc rnd p =
          a ++ (descCdataOpen ++ p.description ++ cdataCloseS) ++ b) ∧
    containsL badProj.description cdataCloseS = true ∧
    containsL (makeRSS "b".toList [] (fun _ => []) [] [badProj])
      ("<description><![CDATA[x]]>".toList) = true := by
  have e1 : iS1 = "\n    <item>\n      ".toList ++ titleCdataOpen := by decide
  have e2 : iS2 = cdataCloseS ++ "</title>\n      <link>".toList := by decide
  have e3 : iS3 = "</link>\n      ".toList ++ descCdataOpen := by decide
  have e4 : iS4 = cdataCloseS ++ "</description>\n      <pubDate>".toList := by decide
  refine ⟨?_, ?_, by decide, by decide⟩
  · intro base now utc rnd p
    refine ⟨"\n    <item>\n      ".toList,
      "</title>\n      <link>".toList ++ itemLinkVal base p ++ iS3 ++ p.description ++
        iS4 ++ itemDateVal now utc p ++ iS5 ++ itemGuidVal rnd p ++ iS6, ?_⟩
    rw [itemXml, e1, e2]
    simp [List.append_assoc]
  · intro base now utc rnd p
    refine ⟨iS1 ++ p.title ++ iS2 ++ itemLinkVal base p ++ "</link>\n      ".toList,
      "</description>\n      <pubDate>".toList ++ itemDateVal now utc p ++ iS5 ++
        itemGuidVal rnd p ++ iS6, ?_⟩
    rw [itemXml, e3, e4]
    simp [List.append_assoc]

end JSP
